import Mathlib

/-!
Verification of the MemFS in-memory filesystem (github.com/manderson5192/memfs).

This file shallowly embeds the inode layer, the lexical path utilities and the
open-mode predicates of the Go source, and proves or refutes the frozen claims
about them.

Modelling conventions:
* Go pointers to inodes become natural-number ids into an explicit heap (`FS`).
  `FS.dirs` maps ids to directory inodes, `FS.files` maps ids to file byte
  buffers.  Allocation uses the `nextId` counter.  Inodes are never removed
  from the heap (Go is garbage collected; an unreferenced inode simply becomes
  unreachable), which matches the "open after unlink" semantics.
* Go strings are `List Char`; Go byte buffers are `List Nat`.
* A Go `map[string]Inode` is an association list `Entries`; only its map view
  (lookup / erase / overwrite / emptiness) is ever consumed, mirroring Go's
  unordered maps.  Insertion is modelled as erase-then-cons, which produces the
  same map view as Go's in-place update.
* Functions returning `error` become functions returning `Option Err × FS`:
  the error kind (or `none` for success) together with the heap after the
  call.  `Err.generic` models a bare `fmt.Errorf` error that carries none of
  the `fserrors` kinds.  Heap mutations are threaded in exactly the order the
  Go statements perform them.
* Branches that are impossible for the heaps Go can actually build (a dangling
  id, i.e. a nil-dereference) return `Err.generic` so that definitions stay
  total; no theorem below relies on those branches.
-/

namespace MemFS

/-- Error kinds from src/fserrors/fserrors.go, plus `eof` for `io.EOF` and
`generic` for a bare `fmt.Errorf` error that carries no fserrors kind. -/
inductive Err where
  | eExist
  | eNoEnt
  | eIsDir
  | eNotDir
  | eInval
  | eNoSpace
  | eNotEmpty
  | eof
  | generic
deriving DecidableEq, Repr

/-- A reference to an inode: Go's `Inode` interface value, which is either a
`*FileInode` or a `*DirectoryInode` pointer (src/inode/inode.go). -/
inductive Ref where
  | file (id : Nat)
  | dir (id : Nat)
deriving DecidableEq, Repr

/-- Whether a reference has `InodeType() == InodeFile`. -/
def Ref.isFile : Ref → Bool
  | .file _ => true
  | .dir _ => false

/-- Go strings modelled as lists of runes. -/
abbrev EntryName := List Char

/-- The "." entry name (filepath.SelfDirectoryEntry). -/
def selfEntry : EntryName := ['.']

/-- The ".." entry name (filepath.ParentDirectoryEntry). -/
def parentEntry : EntryName := ['.', '.']

/-- The map view of a Go `map[string]Inode`. -/
abbrev Entries := List (EntryName × Ref)

/-- Lookup of a key in the entry table: Go's `i.contents[entry]`. -/
def lookupEntry : Entries → EntryName → Option Ref
  | [], _ => none
  | (k, v) :: rest, key => if k = key then some v else lookupEntry rest key

/-- Removal of a key: Go's `delete(i.contents, entry)`. -/
def eraseEntry : Entries → EntryName → Entries
  | [], _ => []
  | (k, v) :: rest, key =>
    if k = key then eraseEntry rest key else (k, v) :: eraseEntry rest key

/-- Overwriting insertion: Go's `i.contents[entry] = inode`.  Represented as
erase-then-cons, which yields the same map view as Go's in-place update. -/
def insertEntry (es : Entries) (key : EntryName) (v : Ref) : Entries :=
  (key, v) :: eraseEntry es key

/-- Whether the table holds an entry other than "." and "..": the loop in
`delete` (src/inode/directory_inode.go:294) that decides `ENotEmpty`. -/
def hasNonSpecialEntry (es : Entries) : Bool :=
  es.any (fun e => decide (e.1 ≠ selfEntry) && decide (e.1 ≠ parentEntry))

/-- DirectoryInode (src/inode/directory_inode.go:13): the `deleted` mark and
the entry table.  The embedded RW-lock guards the fields and has no
sequential-semantics content. -/
structure DirectoryInode where
  deleted : Bool
  contents : Entries
deriving DecidableEq, Repr

/-- The filesystem heap: every allocated directory and file inode, plus an
allocation counter for fresh ids. -/
structure FS where
  dirs : Nat → Option DirectoryInode
  files : Nat → Option (List Nat)
  nextId : Nat

/-- Heap update of one directory inode (a mutation through a Go pointer). -/
def FS.setDir (fs : FS) (id : Nat) (d : DirectoryInode) : FS :=
  { fs with dirs := fun j => if j = id then some d else fs.dirs j }

/-- Heap update of one file inode's byte buffer. -/
def FS.setFile (fs : FS) (id : Nat) (data : List Nat) : FS :=
  { fs with files := fun j => if j = id then some data else fs.files j }

/-- The id of the root directory inode. -/
def rootId : Nat := 0

/-- NewRootDirectoryInode (src/inode/directory_inode.go:19): "." and ".." both
point back at the root itself. -/
def rootDirectoryInode : DirectoryInode :=
  { deleted := false
    contents := [(selfEntry, Ref.dir rootId), (parentEntry, Ref.dir rootId)] }

/-- A fresh filesystem: just the root directory inode (src/filesys/filesys.go). -/
def initFS : FS :=
  { dirs := fun j => if j = rootId then some rootDirectoryInode else none
    files := fun _ => none
    nextId := 1 }

/-- delete (src/inode/directory_inode.go:286): mark a directory inode deleted;
succeeds only if it is empty (or already deleted). -/
def dirDelete (fs : FS) (i : Nat) : Option Err × FS :=
  match fs.dirs i with
  | none => (some Err.generic, fs)
  | some d =>
    if d.deleted then (none, fs)
    else if hasNonSpecialEntry d.contents then (some Err.eNotEmpty, fs)
    else (none, fs.setDir i { d with deleted := true })

/-- doDeleteDirectory (src/inode/directory_inode.go:316): refuse "." and "..";
the named child must be a directory and must delete (be empty); then remove the
entry. -/
def doDeleteDirectory (fs : FS) (i : Nat) (entry : EntryName) : Option Err × FS :=
  if entry = selfEntry ∨ entry = parentEntry then (some Err.eInval, fs)
  else
    match fs.dirs i with
    | none => (some Err.generic, fs)
    | some d =>
      match lookupEntry d.contents entry with
      | none => (some Err.eNoEnt, fs)
      | some (Ref.file _) => (some Err.eNotDir, fs)
      | some (Ref.dir c) =>
        match dirDelete fs c with
        | (some e, fs1) => (some e, fs1)
        | (none, fs1) =>
          -- Go re-reads `i.contents` after `dirInode.delete()`; re-read the heap
          -- since `c` may alias `i`.
          match fs1.dirs i with
          | none => (some Err.generic, fs1)
          | some d1 =>
            (none, fs1.setDir i { d1 with contents := eraseEntry d1.contents entry })

/-- DeleteDirectory (src/inode/directory_inode.go:339): the locked wrapper. -/
def DeleteDirectory (fs : FS) (i : Nat) (entry : EntryName) : Option Err × FS :=
  doDeleteDirectory fs i entry

/-- doDeleteFile (src/inode/directory_inode.go:350): the named child must be a
file; remove the entry (the file inode's bytes are untouched). -/
def doDeleteFile (fs : FS) (i : Nat) (entry : EntryName) : Option Err × FS :=
  match fs.dirs i with
  | none => (some Err.generic, fs)
  | some d =>
    match lookupEntry d.contents entry with
    | none => (some Err.eNoEnt, fs)
    | some (Ref.dir _) => (some Err.eIsDir, fs)
    | some (Ref.file _) =>
      (none, fs.setDir i { d with contents := eraseEntry d.contents entry })

/-- DeleteFile (src/inode/directory_inode.go:365): the locked wrapper. -/
def DeleteFile (fs : FS) (i : Nat) (entry : EntryName) : Option Err × FS :=
  doDeleteFile fs i entry

/-- SetParent (src/inode/directory_inode.go:371): overwrite the ".." entry. -/
def SetParent (fs : FS) (i : Nat) (parent : Nat) : FS :=
  match fs.dirs i with
  | none => fs
  | some d =>
    fs.setDir i { d with contents := insertEntry d.contents parentEntry (Ref.dir parent) }

/-- AddDirectory (src/inode/directory_inode.go:103): reject names containing
the separator, deleted parents and existing entries; allocate a fresh child
directory inode whose "." is itself and whose ".." is the parent. -/
def AddDirectory (fs : FS) (i : Nat) (name : EntryName) : Option Err × FS :=
  if '/' ∈ name then (some Err.eInval, fs)
  else
    match fs.dirs i with
    | none => (some Err.generic, fs)
    | some d =>
      if d.deleted then (some Err.eNoEnt, fs)
      else if (lookupEntry d.contents name).isSome then (some Err.eExist, fs)
      else
        let newId := fs.nextId
        let newDir : DirectoryInode :=
          { deleted := false
            contents := [(selfEntry, Ref.dir newId), (parentEntry, Ref.dir i)] }
        let fs1 : FS :=
          { fs with
            nextId := newId + 1
            dirs := fun j => if j = newId then some newDir else fs.dirs j }
        match fs1.dirs i with
        | none => (some Err.generic, fs1)
        | some d1 =>
          (none, fs1.setDir i { d1 with contents := insertEntry d1.contents name (Ref.dir newId) })

/-- CreateFileInodeEntry (src/inode/directory_inode.go:199): return an existing
file entry (or `EExist` when exclusive, `EIsDir` when it is a directory), or
create a fresh file inode in a non-deleted parent. -/
def CreateFileInodeEntry (fs : FS) (i : Nat) (entry : EntryName) (errOnExist : Bool) :
    Option Err × FS :=
  if '/' ∈ entry then (some Err.eInval, fs)
  else
    match fs.dirs i with
    | none => (some Err.generic, fs)
    | some d =>
      match lookupEntry d.contents entry with
      | some inode =>
        if errOnExist then (some Err.eExist, fs)
        else
          match inode with
          | Ref.file _ => (none, fs)
          | Ref.dir _ => (some Err.eIsDir, fs)
      | none =>
        if d.deleted then (some Err.eNoEnt, fs)
        else
          let newId := fs.nextId
          let fs1 : FS :=
            { fs with
              nextId := newId + 1
              files := fun j => if j = newId then some [] else fs.files j }
          match fs1.dirs i with
          | none => (some Err.generic, fs1)
          | some d1 =>
            (none, fs1.setDir i { d1 with contents := insertEntry d1.contents entry (Ref.file newId) })

/-- PathInfo (src/filepath/filepath.go:79). -/
structure PathInfo where
  Entry : EntryName
  ParentPath : EntryName
  MustBeDir : Bool
  IsRelative : Bool
deriving DecidableEq, Repr

/-- doInsertFileInode (src/inode/directory_inode.go:484): delete any existing
entry of the same name (directories must be empty), then insert the file. -/
def doInsertFileInode (fs : FS) (i : Nat) (entry : EntryName) (newEntry : Nat) :
    Option Err × FS :=
  match fs.dirs i with
  | none => (some Err.generic, fs)
  | some d =>
    let afterDelete : Option Err × FS :=
      match lookupEntry d.contents entry with
      | some (Ref.file _) => doDeleteFile fs i entry
      | some (Ref.dir _) => doDeleteDirectory fs i entry
      | none => (none, fs)
    match afterDelete with
    | (some e, fs1) => (some e, fs1)
    | (none, fs1) =>
      match fs1.dirs i with
      | none => (some Err.generic, fs1)
      | some d1 =>
        (none, fs1.setDir i { d1 with contents := insertEntry d1.contents entry (Ref.file newEntry) })

/-- doInsertDirectoryInode (src/inode/directory_inode.go:510): delete any
existing entry of the same name (directories must be empty), insert the
directory, then point its ".." at the new parent via SetParent. -/
def doInsertDirectoryInode (fs : FS) (i : Nat) (entry : EntryName) (newEntry : Nat) :
    Option Err × FS :=
  match fs.dirs i with
  | none => (some Err.generic, fs)
  | some d =>
    let afterDelete : Option Err × FS :=
      match lookupEntry d.contents entry with
      | some (Ref.file _) => doDeleteFile fs i entry
      | some (Ref.dir _) => doDeleteDirectory fs i entry
      | none => (none, fs)
    match afterDelete with
    | (some e, fs1) => (some e, fs1)
    | (none, fs1) =>
      match fs1.dirs i with
      | none => (some Err.generic, fs1)
      | some d1 =>
        let fs2 := fs1.setDir i { d1 with contents := insertEntry d1.contents entry (Ref.dir newEntry) }
        (none, SetParent fs2 newEntry i)

/-- renameEntry (src/inode/directory_inode.go:438): the same-parent special
case of MoveEntry.  Note the immediate no-op success for identical names, and
that the missing-source error is a bare `fmt.Errorf` (line 452), not an
fserrors kind. -/
def renameEntry (fs : FS) (i : Nat) (src dst : PathInfo) : Option Err × FS :=
  if src.Entry = dst.Entry then (none, fs)
  else
    match fs.dirs i with
    | none => (some Err.generic, fs)
    | some d =>
      if d.deleted then (some Err.eNoEnt, fs)
      else
        match lookupEntry d.contents src.Entry with
        | none => (some Err.generic, fs)
        | some inode =>
          if inode.isFile && src.MustBeDir then (some Err.eNotDir, fs)
          else if inode.isFile && dst.MustBeDir then (some Err.eNotDir, fs)
          else
            let inserted : Option Err × FS :=
              match inode with
              | Ref.file f => doInsertFileInode fs i dst.Entry f
              | Ref.dir c => doInsertDirectoryInode fs i dst.Entry c
            match inserted with
            | (some e, fs1) => (some e, fs1)
            | (none, fs1) =>
              match fs1.dirs i with
              | none => (some Err.generic, fs1)
              | some d1 =>
                (none, fs1.setDir i { d1 with contents := eraseEntry d1.contents src.Entry })

/-- MoveEntry (src/inode/directory_inode.go:379): relocate the inode named by
`src` under `srcP` to the entry named by `dst` under `dstP`. -/
def MoveEntry (fs : FS) (srcP dstP : Nat) (src dst : PathInfo) : Option Err × FS :=
  if src.Entry = selfEntry ∨ src.Entry = parentEntry then (some Err.eInval, fs)
  else if dst.Entry = selfEntry ∨ dst.Entry = parentEntry then (some Err.eInval, fs)
  else if '/' ∈ dst.Entry then (some Err.eInval, fs)
  else if srcP = dstP then renameEntry fs srcP src dst
  else
    match fs.dirs dstP with
    | none => (some Err.generic, fs)
    | some dd =>
      if dd.deleted then (some Err.eNoEnt, fs)
      else
        match fs.dirs srcP with
        | none => (some Err.generic, fs)
        | some sd =>
          match lookupEntry sd.contents src.Entry with
          | none => (some Err.eNoEnt, fs)
          | some srcInode =>
            if srcInode.isFile && src.MustBeDir then (some Err.eNotDir, fs)
            else if srcInode.isFile && dst.MustBeDir then (some Err.eNotDir, fs)
            else
              let inserted : Option Err × FS :=
                match srcInode with
                | Ref.file f => doInsertFileInode fs dstP dst.Entry f
                | Ref.dir c => doInsertDirectoryInode fs dstP dst.Entry c
              match inserted with
              | (some e, fs1) => (some e, fs1)
              | (none, fs1) =>
                match fs1.dirs srcP with
                | none => (some Err.generic, fs1)
                | some sd1 =>
                  (none, fs1.setDir srcP { sd1 with contents := eraseEntry sd1.contents src.Entry })

/-! ### FileInode operations (src/unnamed/part_004) -/

/-- math.MaxInt on a 64-bit platform (the `int`/`int64` width used by the Go
source). -/
def maxInt : Int := 2 ^ 63 - 1

/-- ReadAll (src/unnamed/part_004:35): a copy of the whole byte buffer. -/
def FileReadAll (data : List Nat) : List Nat := data

/-- TruncateAndWriteAll (src/unnamed/part_004:44): replace the buffer, failing
`EInval` on a nil buffer. -/
def FileTruncateAndWriteAll (data : List Nat) (d : Option (List Nat)) :
    Option Err × List Nat :=
  match d with
  | none => (some Err.eInval, data)
  | some d0 => (none, d0)

/-- ReadAt (src/unnamed/part_004:57).  `data` is the byte buffer, `dataCap` the
capacity of the backing slice (`dataCap ≥ data.length`; a fresh inode's
`[]byte{}` literal has capacity 0).  `p` is the caller's buffer (`none` = nil).
Returns `none` when the Go code panics (the slice expression
`i.data[intOff:intOff+numBytesToRead]` requires `intOff + numBytesToRead ≤
cap(i.data)`), otherwise `some (n, err, p')` with the bytes
read, the error, and the buffer after `copy`. -/
def FileReadAt (data : List Nat) (dataCap : Nat) (p : Option (List Nat)) (off : Int) :
    Option (Nat × Option Err × Option (List Nat)) :=
  match p with
  | none => some (0, some Err.eInval, none)
  | some buf =>
    if off < 0 then some (0, some Err.eInval, some buf)
    else if off > maxInt then some (0, some Err.eof, some buf)
    else
      let intOff := off.toNat
      -- utils.Max(len(i.data)-intOff, 0), computed in Go's int arithmetic
      let bytesAfterOffset := ((data.length : Int) - (intOff : Int)).toNat
      let numBytesRequested := buf.length
      let numBytesToRead := min bytesAfterOffset numBytesRequested
      -- Go slice bounds check for i.data[intOff : intOff+numBytesToRead]:
      -- panics unless the high index is at most the capacity.
      if intOff + numBytesToRead ≤ dataCap then
        let src := (data.drop intOff).take numBytesToRead
        let buf1 := src ++ buf.drop src.length
        some (numBytesToRead,
              if numBytesToRead < numBytesRequested then some Err.eof else none,
              some buf1)
      else none

/-- WriteAt (src/unnamed/part_004:89): zero-extend to the offset if needed,
then copy the buffer in; `ENoSpace` past `maxInt`, `EInval` on nil buffer or
negative offset. -/
def FileWriteAt (data : List Nat) (p : Option (List Nat)) (off : Int) :
    Nat × Option Err × List Nat :=
  match p with
  | none => (0, some Err.eInval, data)
  | some buf =>
    if off < 0 then (0, some Err.eInval, data)
    else if off + (buf.length : Int) > maxInt then (0, some Err.eNoSpace, data)
    else
      let intOff := off.toNat
      let zeroesToAppend :=
        if intOff + buf.length > data.length then intOff + buf.length - data.length else 0
      let data1 := data ++ List.replicate zeroesToAppend 0
      let data2 := (data1.take intOff) ++ buf ++ data1.drop (intOff + buf.length)
      (buf.length, none, data2)

/-! ### FS-level file write operations (used to close the set of mutating
public operations for the reachable-state invariant). -/

/-- TruncateAndWriteAll lifted to the heap. -/
def FSTruncateAndWriteAll (fs : FS) (fid : Nat) (d : Option (List Nat)) : Option Err × FS :=
  match fs.files fid with
  | none => (some Err.generic, fs)
  | some data =>
    match FileTruncateAndWriteAll data d with
    | (some e, _) => (some e, fs)
    | (none, data1) => (none, fs.setFile fid data1)

/-- WriteAt lifted to the heap. -/
def FSWriteAt (fs : FS) (fid : Nat) (p : Option (List Nat)) (off : Int) :
    Nat × Option Err × FS :=
  match fs.files fid with
  | none => (0, some Err.generic, fs)
  | some data =>
    match FileWriteAt data p off with
    | (n, some e, _) => (n, some e, fs)
    | (n, none, data1) => (n, none, fs.setFile fid data1)

/-- ReadAll lifted to the heap: what an open handle on file inode `fid`
returns (src/unnamed/part_004:35 reads only the inode's buffer). -/
def FSReadAll (fs : FS) (fid : Nat) : Option (List Nat) :=
  match fs.files fid with
  | none => none
  | some data => some (FileReadAll data)

/-! ### Open-mode predicates (src/modes/file_modes.go).  The numeric values
are Go's os package constants on linux/amd64. -/

def O_RDONLY : Nat := 0
def O_WRONLY : Nat := 1
def O_RDWR : Nat := 2
def O_CREATE : Nat := 64
def O_EXCL : Nat := 128
def O_TRUNC : Nat := 512
def O_APPEND : Nat := 1024

/-- checkMode (src/modes/file_modes.go:34). -/
def checkMode (combinedModes singleMode : Nat) : Bool :=
  combinedModes &&& singleMode = singleMode

/-- IsWriteAllowed (src/modes/file_modes.go:25). -/
def IsWriteAllowed (mode : Nat) : Bool :=
  checkMode mode O_WRONLY || checkMode mode O_RDWR

/-- IsReadOnly (src/modes/file_modes.go:29). -/
def IsReadOnly (mode : Nat) : Bool :=
  ! IsWriteAllowed mode

/-- IsWriteOnly (src/modes/file_modes.go:38). -/
def IsWriteOnly (mode : Nat) : Bool :=
  checkMode mode O_WRONLY

/-- IsAppendMode (src/modes/file_modes.go:46). -/
def IsAppendMode (mode : Nat) : Bool :=
  checkMode mode O_APPEND

/-! ### Mode-gated open-file handle.

The released file package with mode gating is not present under src/ (only its
callers and tests are: src/process/file.go passes a mode to
directory.OpenFile, and src/process/file_test.go pins the gating behavior);
src/unnamed/part_015 holds the earlier, ungated version of the same `file`
struct.  The handle operations below are therefore modelled from the spec. -/

/-- An open file handle: the referenced inode's buffer, the handle offset and
the open mode (spec 4.6 FileHandle state). -/
structure FileHandle where
  mode : Nat
  offset : Int
  data : List Nat
deriving DecidableEq, Repr

/-- Modelled from the spec: read_all is "forbidden when write-only"
(spec 4.6), failing `InvalidArgument`; otherwise it returns a copy of the
inode's bytes.  The released gated implementation is missing from src/. -/
def hReadAll (h : FileHandle) : Except Err (List Nat) :=
  if IsWriteOnly h.mode then Except.error Err.eInval
  else Except.ok (FileReadAll h.data)

/-- Modelled from the spec: truncate_and_write_all is "forbidden when
read-only or append-mode" (spec 4.6), failing `InvalidArgument`; otherwise it
delegates to the inode-level truncate-and-write. -/
def hTruncateAndWriteAll (h : FileHandle) (buf : Option (List Nat)) :
    Except Err FileHandle :=
  if IsReadOnly h.mode then Except.error Err.eInval
  else if IsAppendMode h.mode then Except.error Err.eInval
  else
    match FileTruncateAndWriteAll h.data buf with
    | (some e, _) => Except.error e
    | (none, data1) => Except.ok { h with data := data1 }

/-- Modelled from the spec: read_at is "stateless in offset; fails write-only"
(spec 4.6) with `InvalidArgument`; otherwise it delegates to the inode-level
ReadAt (capacity taken as the buffer length). -/
def hReadAt (h : FileHandle) (buf : Option (List Nat)) (off : Int) :
    Except Err (Nat × Option Err × Option (List Nat)) :=
  if IsWriteOnly h.mode then Except.error Err.eInval
  else
    match FileReadAt h.data h.data.length buf off with
    | none => Except.error Err.generic
    | some r => Except.ok r

/-- Modelled from the spec: write_at is "stateless in offset; fails read-only
or append-mode" (spec 4.6) with `InvalidArgument`; otherwise it delegates to
the inode-level WriteAt. -/
def hWriteAt (h : FileHandle) (buf : Option (List Nat)) (off : Int) :
    Except Err (Nat × FileHandle) :=
  if IsReadOnly h.mode then Except.error Err.eInval
  else if IsAppendMode h.mode then Except.error Err.eInval
  else
    match FileWriteAt h.data buf off with
    | (_, some e, _) => Except.error e
    | (n, none, data1) => Except.ok (n, { h with data := data1 })

/-- Modelled from the spec: read is "offset-mutating; fails write-only"
(spec 4.6) with `InvalidArgument`; on success it reads at the handle offset
and advances the offset by the bytes produced. -/
def hRead (h : FileHandle) (buf : Option (List Nat)) :
    Except Err (Nat × Option Err × Option (List Nat) × FileHandle) :=
  if IsWriteOnly h.mode then Except.error Err.eInval
  else
    match FileReadAt h.data h.data.length buf h.offset with
    | none => Except.error Err.generic
    | some (n, e, buf1) => Except.ok (n, e, buf1, { h with offset := h.offset + n })

/-- Modelled from the spec: write is "offset-mutating; fails read-only"
(spec 4.6) with `InvalidArgument`; if append-mode it first seeks to the end,
then writes at the offset and advances it by the bytes written. -/
def hWrite (h : FileHandle) (buf : Option (List Nat)) :
    Except Err (Nat × FileHandle) :=
  if IsReadOnly h.mode then Except.error Err.eInval
  else
    let off := if IsAppendMode h.mode then (h.data.length : Int) else h.offset
    match FileWriteAt h.data buf off with
    | (_, some e, _) => Except.error e
    | (n, none, data1) => Except.ok (n, { h with data := data1, offset := off + n })

/-! ### Lock acquisition order of MoveEntry -/

/-- The sequence of write-lock acquisitions MoveEntry performs on parent
directory inodes (src/inode/directory_inode.go:392-400): one lock in the
same-parent case (via renameEntry), otherwise the source parent's lock
followed by the destination parent's lock, in argument order. -/
def moveEntryLockOrder (srcP dstP : Nat) : List Nat :=
  if srcP = dstP then [srcP] else [srcP, dstP]

/-- The property the spec asserts of the locking discipline: cross-parent
acquisitions follow a globally consistent total order on stable node
identities, i.e. for any unordered pair of distinct parents the two locks are
always taken in the same sequence regardless of which is source and which is
destination. -/
def GloballyOrderedLocking : Prop :=
  ∀ a b : Nat, a ≠ b → moveEntryLockOrder a b = moveEntryLockOrder b a

/-! ### Lexical path cleaning (src/filepath/filepath.go) -/

/-- Phase 1 of Clean (src/filepath/filepath.go:36-48): the builder loop that
collapses runs of the separator, carrying the `lastRuneWasSeparator` flag. -/
def collapseSeps : List Char → Bool → List Char
  | [], _ => []
  | r :: rest, lastSep =>
    if r = '/' && lastSep then collapseSeps rest lastSep
    else r :: collapseSeps rest (r = '/')

/-- Phase 3 of Clean (src/filepath/filepath.go:61-63): the loop stripping
leading "/../" sequences from absolute paths. -/
def stripLeadingParentRefs (l : List Char) : List Char :=
  if h : l.take 4 = ['/', '.', '.', '/'] then
    stripLeadingParentRefs ('/' :: l.drop 4)
  else l
termination_by l.length
decreasing_by
  have hlen : 4 ≤ l.length := by
    have := congrArg List.length h
    simpa [List.length_take] using this
  simp only [List.length_cons, List.length_drop]
  omega

/-- Clean (src/filepath/filepath.go:34): collapse separator runs, drop "."
parts, strip leading ".." sequences from absolute paths, mapping "/.." to
"/". -/
def Clean (path : List Char) : List Char :=
  let p1 := collapseSeps path false
  let parts := p1.splitOn '/'
  let sanitizedParts := parts.filter (fun part => decide (part ≠ ['.']))
  let p2 := List.intercalate ['/'] sanitizedParts
  let p3 := stripLeadingParentRefs p2
  if p3 = ['/', '.', '.'] then ['/'] else p3

/-- Clean on Lean strings. -/
def cleanString (s : String) : String :=
  String.mk (Clean s.data)

/-! ### Reachability of directories in the heap -/

/-- All directory ids referenced from the entry table of directory `id`
(including via "." and ".."). -/
def childDirIds (fs : FS) (id : Nat) : List Nat :=
  match fs.dirs id with
  | none => []
  | some d => d.contents.filterMap (fun e =>
      match e.2 with
      | Ref.dir c => some c
      | Ref.file _ => none)

/-- The directory ids reachable from the root in at most `n` entry-table
steps. -/
def reachableDirs (fs : FS) : Nat → List Nat
  | 0 => [rootId]
  | n + 1 =>
    let prev := reachableDirs fs n
    (prev ++ prev.flatMap (childDirIds fs)).dedup

/-! ### Reachable filesystem states -/

/-- The filesystem states reachable from a fresh filesystem by sequences of
the mutating operations behind the public surface: mkdir (AddDirectory),
open/create file (CreateFileInodeEntry), rmdir (DeleteDirectory), file unlink
(DeleteFile), rename/move (MoveEntry, which covers the same-parent
renameEntry), and the file writes (TruncateAndWriteAll, WriteAt).  Read-only
operations do not change the state. -/
inductive Reachable : FS → Prop where
  | init : Reachable initFS
  | addDirectory {fs : FS} (i : Nat) (name : EntryName) :
      Reachable fs → Reachable (AddDirectory fs i name).2
  | createFile {fs : FS} (i : Nat) (entry : EntryName) (errOnExist : Bool) :
      Reachable fs → Reachable (CreateFileInodeEntry fs i entry errOnExist).2
  | deleteDirectory {fs : FS} (i : Nat) (entry : EntryName) :
      Reachable fs → Reachable (DeleteDirectory fs i entry).2
  | deleteFile {fs : FS} (i : Nat) (entry : EntryName) :
      Reachable fs → Reachable (DeleteFile fs i entry).2
  | moveEntry {fs : FS} (srcP dstP : Nat) (src dst : PathInfo) :
      Reachable fs → Reachable (MoveEntry fs srcP dstP src dst).2
  | truncateAndWriteAll {fs : FS} (fid : Nat) (d : Option (List Nat)) :
      Reachable fs → Reachable (FSTruncateAndWriteAll fs fid d).2
  | writeAt {fs : FS} (fid : Nat) (p : Option (List Nat)) (off : Int) :
      Reachable fs → Reachable (FSWriteAt fs fid p off).2.2

/-- The structural invariant of reachable heaps.  Beyond the claimed facts
("." is a self-loop, ".." exists, a contained directory's ".." is its
container, root's ".." is root) it carries the bookkeeping needed for the
induction: ids are below the allocation counter, directory references hit the
heap, a directory is referenced by at most one non-special entry, and no
non-special entry references the root. -/
structure Inv (fs : FS) : Prop where
  dom_lt : ∀ id, fs.nextId ≤ id → fs.dirs id = none
  root_ex : (fs.dirs rootId).isSome
  self_loop : ∀ id d, fs.dirs id = some d →
      lookupEntry d.contents selfEntry = some (Ref.dir id)
  parent_ex : ∀ id d, fs.dirs id = some d →
      ∃ p, lookupEntry d.contents parentEntry = some (Ref.dir p)
  root_parent : ∀ d, fs.dirs rootId = some d →
      lookupEntry d.contents parentEntry = some (Ref.dir rootId)
  ref_closed : ∀ p dp n c, fs.dirs p = some dp →
      lookupEntry dp.contents n = some (Ref.dir c) → (fs.dirs c).isSome
  coherent : ∀ p dp n c dc, fs.dirs p = some dp →
      n ≠ selfEntry → n ≠ parentEntry →
      lookupEntry dp.contents n = some (Ref.dir c) → fs.dirs c = some dc →
      lookupEntry dc.contents parentEntry = some (Ref.dir p)
  unique_ref : ∀ p1 d1 n1 p2 d2 n2 c, fs.dirs p1 = some d1 → fs.dirs p2 = some d2 →
      n1 ≠ selfEntry → n1 ≠ parentEntry → n2 ≠ selfEntry → n2 ≠ parentEntry →
      lookupEntry d1.contents n1 = some (Ref.dir c) →
      lookupEntry d2.contents n2 = some (Ref.dir c) → p1 = p2 ∧ n1 = n2
  no_root_ref : ∀ p dp n, fs.dirs p = some dp → n ≠ selfEntry → n ≠ parentEntry →
      lookupEntry dp.contents n ≠ some (Ref.dir rootId)

/-! ### Fixed-point characterization of Clean -/

/-- No two adjacent separators. -/
def NoDoubleSep (l : List Char) : Prop :=
  List.Chain' (fun a b => ¬(a = '/' ∧ b = '/')) l

/-- All elements of a list of path parts except the last are nonempty. -/
def nonEmptyButLast : List (List Char) → Prop
  | [] => True
  | [_] => True
  | p :: rest => p ≠ [] ∧ nonEmptyButLast rest

/-- Empty parts occur only in first or last position. -/
def midPartsNonEmpty : List (List Char) → Prop
  | [] => True
  | _ :: rest => nonEmptyButLast rest

/-- The fixed points of Clean: no separator runs, no "." parts, no leading
"/../" and not the string "/..". -/
def CleanedForm (l : List Char) : Prop :=
  NoDoubleSep l ∧ ['.'] ∉ l.splitOn '/' ∧ l.take 4 ≠ ['/', '.', '.', '/'] ∧ l ≠ ['/', '.', '.']

/-- The state /a, /a/b built from a fresh filesystem (ids: a = 1, b = 2). -/
def fsAB : FS := (AddDirectory (AddDirectory initFS rootId ['a']).2 1 ['b']).2

/-- PathInfo for the bare relative entry name "a". -/
def piA : PathInfo := { Entry := ['a'], ParentPath := ['.'], MustBeDir := false, IsRelative := true }

/-- PathInfo for the bare relative entry name "x". -/
def piX : PathInfo := { Entry := ['x'], ParentPath := ['.'], MustBeDir := false, IsRelative := true }

/-- The state after moving /a into its own subdirectory /a/b under the name
"x". -/
def fsDetached : FS := (MoveEntry fsAB rootId 2 piA piX).2

/-- A fresh filesystem with one file /f (file inode id 1). -/
def fsF : FS := (CreateFileInodeEntry initFS rootId ['f'] true).2

/-- A fresh filesystem with a subdirectory /d (id 1) holding a file "g"
(file id 2), plus a file "f" (file id 3) in the root: /d, /d/g, /f. -/
def fsMix : FS :=
  (CreateFileInodeEntry
    (CreateFileInodeEntry (AddDirectory initFS rootId ['d']).2 1 ['g'] true).2
    rootId ['f'] true).2

/-- PathInfo for the bare relative entry name "d". -/
def piD : PathInfo := { Entry := ['d'], ParentPath := ['.'], MustBeDir := false, IsRelative := true }

/-- PathInfo for the bare relative entry name "f". -/
def piF : PathInfo := { Entry := ['f'], ParentPath := ['.'], MustBeDir := false, IsRelative := true }

/-! ## Entry-table and heap lemmas -/

theorem lookupEntry_erase (es : Entries) (k k' : EntryName) :
    lookupEntry (eraseEntry es k) k' = if k' = k then none else lookupEntry es k' := by
  induction es with
  | nil =>
    simp only [eraseEntry, lookupEntry]
    split <;> rfl
  | cons e rest ih =>
    obtain ⟨a, b⟩ := e
    simp only [eraseEntry]
    by_cases hak : a = k
    · rw [if_pos hak, ih]
      by_cases hk : k' = k
      · simp [hk]
      · have hak' : a ≠ k' := fun hh => hk (by rw [← hh, hak])
        simp [lookupEntry, hk, hak']
    · rw [if_neg hak]
      simp only [lookupEntry]
      by_cases hk' : a = k'
      · rw [if_pos hk', if_pos hk']
        have hkk : ¬ k' = k := fun hh => hak (by rw [hk', hh])
        rw [if_neg hkk]
      · rw [if_neg hk', if_neg hk', ih]

theorem lookupEntry_erase_self (es : Entries) (k : EntryName) :
    lookupEntry (eraseEntry es k) k = none := by
  rw [lookupEntry_erase, if_pos rfl]

theorem lookupEntry_erase_ne (es : Entries) (k k' : EntryName) (h : k' ≠ k) :
    lookupEntry (eraseEntry es k) k' = lookupEntry es k' := by
  rw [lookupEntry_erase, if_neg h]

theorem lookupEntry_insert (es : Entries) (k k' : EntryName) (v : Ref) :
    lookupEntry (insertEntry es k v) k' = if k' = k then some v else lookupEntry es k' := by
  simp only [insertEntry, lookupEntry]
  by_cases hk : k' = k
  · simp [hk]
  · rw [if_neg (fun hh => hk hh.symm), if_neg hk, lookupEntry_erase_ne _ _ _ hk]

theorem lookupEntry_insert_self (es : Entries) (k : EntryName) (v : Ref) :
    lookupEntry (insertEntry es k v) k = some v := by
  rw [lookupEntry_insert, if_pos rfl]

theorem lookupEntry_insert_ne (es : Entries) (k k' : EntryName) (v : Ref) (h : k' ≠ k) :
    lookupEntry (insertEntry es k v) k' = lookupEntry es k' := by
  rw [lookupEntry_insert, if_neg h]

theorem FS.setDir_dirs (fs : FS) (i : Nat) (d : DirectoryInode) (j : Nat) :
    (fs.setDir i d).dirs j = if j = i then some d else fs.dirs j := rfl

theorem FS.setDir_files (fs : FS) (i : Nat) (d : DirectoryInode) :
    (fs.setDir i d).files = fs.files := rfl

theorem FS.setDir_nextId (fs : FS) (i : Nat) (d : DirectoryInode) :
    (fs.setDir i d).nextId = fs.nextId := rfl

theorem FS.setDir_dirs_self (fs : FS) (i : Nat) (d : DirectoryInode) :
    (fs.setDir i d).dirs i = some d := by
  simp [FS.setDir]

theorem FS.setDir_dirs_ne (fs : FS) (i : Nat) (d : DirectoryInode) (j : Nat) (h : j ≠ i) :
    (fs.setDir i d).dirs j = fs.dirs j := by
  simp [FS.setDir, h]

/-! ## Characterizations of the typed insert helpers -/

theorem dirDelete_nonempty (fs : FS) (x : Nat) (dn : DirectoryInode)
    (hx : fs.dirs x = some dn) (hdel : dn.deleted = false)
    (hne : hasNonSpecialEntry dn.contents = true) :
    dirDelete fs x = (some Err.eNotEmpty, fs) := by
  unfold dirDelete
  simp [hx, hdel, hne]

theorem doDeleteDirectory_nonempty (fs : FS) (i : Nat) (entry : EntryName)
    (x : Nat) (d dn : DirectoryInode)
    (hent1 : entry ≠ selfEntry) (hent2 : entry ≠ parentEntry)
    (hdir : fs.dirs i = some d)
    (hl : lookupEntry d.contents entry = some (Ref.dir x))
    (hx : fs.dirs x = some dn) (hdel : dn.deleted = false)
    (hne : hasNonSpecialEntry dn.contents = true) :
    doDeleteDirectory fs i entry = (some Err.eNotEmpty, fs) := by
  unfold doDeleteDirectory
  rw [if_neg (not_or.mpr ⟨hent1, hent2⟩)]
  simp only [hdir, hl]
  rw [dirDelete_nonempty fs x dn hx hdel hne]

theorem doInsertFileInode_over_nonempty (fs : FS) (i : Nat) (entry : EntryName) (f : Nat)
    (x : Nat) (d dn : DirectoryInode)
    (hent1 : entry ≠ selfEntry) (hent2 : entry ≠ parentEntry)
    (hdir : fs.dirs i = some d)
    (hl : lookupEntry d.contents entry = some (Ref.dir x))
    (hx : fs.dirs x = some dn) (hdel : dn.deleted = false)
    (hne : hasNonSpecialEntry dn.contents = true) :
    doInsertFileInode fs i entry f = (some Err.eNotEmpty, fs) := by
  unfold doInsertFileInode
  simp only [hdir, hl]
  rw [doDeleteDirectory_nonempty fs i entry x d dn hent1 hent2 hdir hl hx hdel hne]

theorem doInsertDirectoryInode_over_nonempty (fs : FS) (i : Nat) (entry : EntryName) (c : Nat)
    (x : Nat) (d dn : DirectoryInode)
    (hent1 : entry ≠ selfEntry) (hent2 : entry ≠ parentEntry)
    (hdir : fs.dirs i = some d)
    (hl : lookupEntry d.contents entry = some (Ref.dir x))
    (hx : fs.dirs x = some dn) (hdel : dn.deleted = false)
    (hne : hasNonSpecialEntry dn.contents = true) :
    doInsertDirectoryInode fs i entry c = (some Err.eNotEmpty, fs) := by
  unfold doInsertDirectoryInode
  simp only [hdir, hl]
  rw [doDeleteDirectory_nonempty fs i entry x d dn hent1 hent2 hdir hl hx hdel hne]

theorem doInsertFileInode_over_file (fs : FS) (i : Nat) (entry : EntryName) (f : Nat)
    (d : DirectoryInode) (g : Nat) (hdir : fs.dirs i = some d)
    (hl : lookupEntry d.contents entry = some (Ref.file g)) :
    (doInsertFileInode fs i entry f).1 = none ∧
    (doInsertFileInode fs i entry f).2.dirs i =
      some { deleted := d.deleted,
             contents := insertEntry (eraseEntry d.contents entry) entry (Ref.file f) } ∧
    (∀ j, j ≠ i → (doInsertFileInode fs i entry f).2.dirs j = fs.dirs j) := by
  unfold doInsertFileInode doDeleteFile
  simp only [hdir, hl, FS.setDir_dirs_self]
  refine ⟨by trivial, ?_, fun j hj => ?_⟩
  · simp only [FS.setDir_dirs_self]
  · simp only [FS.setDir_dirs_ne _ _ _ _ hj]

theorem doInsertDirectoryInode_over_file (fs : FS) (i : Nat) (entry : EntryName) (c : Nat)
    (d : DirectoryInode) (g : Nat) (hdir : fs.dirs i = some d)
    (hl : lookupEntry d.contents entry = some (Ref.file g)) :
    (doInsertDirectoryInode fs i entry c).1 = none ∧
    (∃ di, (doInsertDirectoryInode fs i entry c).2.dirs i = some di ∧
      di.deleted = d.deleted ∧
      ∀ k, k ≠ parentEntry →
        lookupEntry di.contents k =
          lookupEntry (insertEntry (eraseEntry d.contents entry) entry (Ref.dir c)) k) ∧
    (∀ j, j ≠ i → j ≠ c → (doInsertDirectoryInode fs i entry c).2.dirs j = fs.dirs j) ∧
    (c ≠ i → ∀ dc, fs.dirs c = some dc →
      (doInsertDirectoryInode fs i entry c).2.dirs c =
        some { dc with contents := insertEntry dc.contents parentEntry (Ref.dir i) }) ∧
    (c ≠ i → fs.dirs c = none → (doInsertDirectoryInode fs i entry c).2.dirs c = none) := by
  by_cases hci : c = i
  · subst hci
    unfold doInsertDirectoryInode doDeleteFile SetParent
    simp only [hdir, hl, FS.setDir_dirs_self]
    refine ⟨by trivial,
      ⟨{ deleted := d.deleted,
         contents := insertEntry (insertEntry (eraseEntry d.contents entry) entry (Ref.dir c))
           parentEntry (Ref.dir c) },
       by simp only [FS.setDir_dirs_self], rfl, fun k hk => ?_⟩,
      fun j hj hjc => ?_, fun hc => absurd rfl hc, fun hc => absurd rfl hc⟩
    · exact lookupEntry_insert_ne _ _ _ _ hk
    · simp only [FS.setDir_dirs_ne _ _ _ _ hj]
  · cases hcd : fs.dirs c with
    | none =>
      unfold doInsertDirectoryInode doDeleteFile SetParent
      simp only [hdir, hl, FS.setDir_dirs_self, FS.setDir_dirs_ne _ _ _ _ hci, hcd]
      refine ⟨by trivial,
        ⟨{ deleted := d.deleted,
           contents := insertEntry (eraseEntry d.contents entry) entry (Ref.dir c) },
         by simp only [FS.setDir_dirs_self], rfl, fun k _ => rfl⟩,
        fun j hj hjc => ?_, fun _ dc hdc => ?_, fun _ _ => ?_⟩
      · simp only [FS.setDir_dirs_ne _ _ _ _ hj]
      · exact Option.noConfusion hdc
      · simp only [FS.setDir_dirs_ne _ _ _ _ hci, hcd]
    | some dc =>
      unfold doInsertDirectoryInode doDeleteFile SetParent
      simp only [hdir, hl, FS.setDir_dirs_self, FS.setDir_dirs_ne _ _ _ _ hci, hcd]
      refine ⟨by trivial,
        ⟨{ deleted := d.deleted,
           contents := insertEntry (eraseEntry d.contents entry) entry (Ref.dir c) },
         ?_, rfl, fun k _ => rfl⟩,
        fun j hj hjc => ?_, fun _ dc2 hdc2 => ?_, fun _ hnone => ?_⟩
      · rw [FS.setDir_dirs_ne _ _ _ _ (fun hh => hci hh.symm), FS.setDir_dirs_self]
      · rw [FS.setDir_dirs_ne _ _ _ _ hjc, FS.setDir_dirs_ne _ _ _ _ hj,
          FS.setDir_dirs_ne _ _ _ _ hj]
      · injection hdc2 with hdceq
        subst hdceq
        rfl
      · exact Option.noConfusion hnone

/-! ## Claim C1: rename over an existing destination entry -/

/-- Counterexample for claim C1: in the state /d (nonempty directory, id 1),
/d/g, /f, the same-parent rename of "d" onto "d" passes every pre-check and
the destination name exists as a nonempty directory, yet MoveEntry returns
no-op success instead of failing NotEmpty (renameEntry short-circuits
identical names before the replacement path,
src/inode/directory_inode.go:440). -/
theorem claim_C1_counterexample :
    (∃ dRoot dn,
      fsMix.dirs rootId = some dRoot ∧ dRoot.deleted = false ∧
      lookupEntry dRoot.contents piD.Entry = some (Ref.dir 1) ∧
      fsMix.dirs 1 = some dn ∧ dn.deleted = false ∧
      hasNonSpecialEntry dn.contents = true) ∧
    MoveEntry fsMix rootId rootId piD piD = (none, fsMix) := by
  constructor
  · exact ⟨_, _, rfl, rfl, by decide, rfl, rfl, by decide⟩
  · rfl

/-- Claim C1 (amended): for every rename (same-parent or cross-parent) whose
pre-checks pass, whose source and destination entry names differ when the
parents coincide (identical same-parent names are a no-op success), and whose
destination entry name already exists in the destination parent: if the
existing destination entry is a non-empty (and not deletion-marked) directory,
the rename fails with the NotEmpty kind and leaves the state (in particular
both parents' entry tables) unchanged; if the existing destination entry is a
file, the rename succeeds, the destination name is overwritten with the source
inode and the source name is removed. -/
theorem claim_C1_amended (fs : FS) (sp dp : Nat) (src dst : PathInfo)
    (hs1 : src.Entry ≠ selfEntry) (hs2 : src.Entry ≠ parentEntry)
    (hd1 : dst.Entry ≠ selfEntry) (hd2 : dst.Entry ≠ parentEntry)
    (hsep : '/' ∉ dst.Entry)
    (hne : sp = dp → src.Entry ≠ dst.Entry)
    (sd dd : DirectoryInode)
    (hsd : fs.dirs sp = some sd) (hdd : fs.dirs dp = some dd)
    (hsdel : sd.deleted = false) (hddel : dd.deleted = false)
    (srcRef : Ref) (hlook : lookupEntry sd.contents src.Entry = some srcRef)
    (hmb1 : (srcRef.isFile && src.MustBeDir) = false)
    (hmb2 : (srcRef.isFile && dst.MustBeDir) = false)
    (dstRef : Ref) (hdst : lookupEntry dd.contents dst.Entry = some dstRef) :
    (∀ x dn, dstRef = Ref.dir x → fs.dirs x = some dn → dn.deleted = false →
      hasNonSpecialEntry dn.contents = true →
      MoveEntry fs sp dp src dst = (some Err.eNotEmpty, fs)) ∧
    (∀ g, dstRef = Ref.file g →
      (MoveEntry fs sp dp src dst).1 = none ∧
      (∃ dd2, (MoveEntry fs sp dp src dst).2.dirs dp = some dd2 ∧
        lookupEntry dd2.contents dst.Entry = some srcRef) ∧
      (∃ sd2, (MoveEntry fs sp dp src dst).2.dirs sp = some sd2 ∧
        lookupEntry sd2.contents src.Entry = none)) := by
  unfold MoveEntry
  rw [if_neg (not_or.mpr ⟨hs1, hs2⟩), if_neg (not_or.mpr ⟨hd1, hd2⟩), if_neg hsep]
  by_cases hspdp : sp = dp
  · -- same-parent path: renameEntry
    subst hspdp
    rw [if_pos rfl]
    rw [hsd] at hdd
    injection hdd with hsddd
    subst hsddd
    have hsrcdst : src.Entry ≠ dst.Entry := hne rfl
    unfold renameEntry
    rw [if_neg hsrcdst]
    simp only [hsd, hsdel, Bool.false_eq_true, if_false, hlook, hmb1, hmb2]
    constructor
    · intro x dn hx hxd hxdel hxne
      subst hx
      cases srcRef with
      | file f =>
        dsimp only
        rw [doInsertFileInode_over_nonempty fs sp dst.Entry f x sd dn hd1 hd2 hsd hdst hxd
          hxdel hxne]
      | dir c =>
        dsimp only
        rw [doInsertDirectoryInode_over_nonempty fs sp dst.Entry c x sd dn hd1 hd2 hsd hdst
          hxd hxdel hxne]
    · intro g hg
      subst hg
      cases srcRef with
      | file f =>
        dsimp only
        obtain ⟨h31, h32, _⟩ := doInsertFileInode_over_file fs sp dst.Entry f sd g hsd hdst
        have hpair : doInsertFileInode fs sp dst.Entry f =
            (none, (doInsertFileInode fs sp dst.Entry f).2) := by
          rw [← h31]
        rw [hpair]
        dsimp only
        simp only [h32, FS.setDir_dirs_self]
        refine ⟨by trivial, ⟨_, rfl, ?_⟩, ⟨_, rfl, ?_⟩⟩
        · rw [lookupEntry_erase_ne _ _ _ (Ne.symm hsrcdst), lookupEntry_insert_self]
        · rw [lookupEntry_erase_self]
      | dir c =>
        dsimp only
        obtain ⟨h31, ⟨di, hdi, _, hdik⟩, _, _, _⟩ :=
          doInsertDirectoryInode_over_file fs sp dst.Entry c sd g hsd hdst
        have hpair : doInsertDirectoryInode fs sp dst.Entry c =
            (none, (doInsertDirectoryInode fs sp dst.Entry c).2) := by
          rw [← h31]
        rw [hpair]
        dsimp only
        simp only [hdi, FS.setDir_dirs_self]
        refine ⟨by trivial, ⟨_, rfl, ?_⟩, ⟨_, rfl, ?_⟩⟩
        · rw [lookupEntry_erase_ne _ _ _ (Ne.symm hsrcdst), hdik dst.Entry hd2,
            lookupEntry_insert_self]
        · rw [lookupEntry_erase_self]
  · -- cross-parent path
    rw [if_neg hspdp]
    simp only [hdd, hddel, Bool.false_eq_true, if_false, hsd, hlook, hmb1, hmb2]
    constructor
    · intro x dn hx hxd hxdel hxne
      subst hx
      cases srcRef with
      | file f =>
        dsimp only
        rw [doInsertFileInode_over_nonempty fs dp dst.Entry f x dd dn hd1 hd2 hdd hdst hxd
          hxdel hxne]
      | dir c =>
        dsimp only
        rw [doInsertDirectoryInode_over_nonempty fs dp dst.Entry c x dd dn hd1 hd2 hdd hdst
          hxd hxdel hxne]
    · intro g hg
      subst hg
      cases srcRef with
      | file f =>
        dsimp only
        obtain ⟨h31, h32, h33⟩ := doInsertFileInode_over_file fs dp dst.Entry f dd g hdd hdst
        have hpair : doInsertFileInode fs dp dst.Entry f =
            (none, (doInsertFileInode fs dp dst.Entry f).2) := by
          rw [← h31]
        rw [hpair]
        dsimp only
        rw [h33 sp hspdp, hsd]
        dsimp only
        refine ⟨by trivial,
          ⟨{ deleted := dd.deleted,
             contents := insertEntry (eraseEntry dd.contents dst.Entry) dst.Entry (Ref.file f) },
           ?_, ?_⟩,
          ⟨{ deleted := sd.deleted, contents := eraseEntry sd.contents src.Entry }, ?_, ?_⟩⟩
        · rw [FS.setDir_dirs_ne _ _ _ _ (Ne.symm hspdp), h32]
        · rw [lookupEntry_insert_self]
        · rw [FS.setDir_dirs_self]
        · rw [lookupEntry_erase_self]
      | dir c =>
        dsimp only
        obtain ⟨h31, ⟨di, hdi, _, hdik⟩, h33, h34, _⟩ :=
          doInsertDirectoryInode_over_file fs dp dst.Entry c dd g hdd hdst
        have hpair : doInsertDirectoryInode fs dp dst.Entry c =
            (none, (doInsertDirectoryInode fs dp dst.Entry c).2) := by
          rw [← h31]
        rw [hpair]
        by_cases hcsp : c = sp
        · subst hcsp
          dsimp only
          rw [h34 hspdp sd hsd]
          dsimp only
          refine ⟨by trivial, ⟨di, ?_, ?_⟩,
            ⟨{ deleted := sd.deleted,
               contents := eraseEntry (insertEntry sd.contents parentEntry (Ref.dir dp))
                 src.Entry }, ?_, ?_⟩⟩
          · rw [FS.setDir_dirs_ne _ _ _ _ (Ne.symm hspdp), hdi]
          · rw [hdik dst.Entry hd2, lookupEntry_insert_self]
          · rw [FS.setDir_dirs_self]
          · rw [lookupEntry_erase_self]
        · dsimp only
          rw [h33 sp hspdp (fun hh => hcsp hh.symm), hsd]
          dsimp only
          refine ⟨by trivial, ⟨di, ?_, ?_⟩,
            ⟨{ deleted := sd.deleted, contents := eraseEntry sd.contents src.Entry }, ?_, ?_⟩⟩
          · rw [FS.setDir_dirs_ne _ _ _ _ (Ne.symm hspdp), hdi]
          · rw [hdik dst.Entry hd2, lookupEntry_insert_self]
          · rw [FS.setDir_dirs_self]
          · rw [lookupEntry_erase_self]

/-- Witness for claim C1 (amended): in the state /d (nonempty dir, id 1),
/d/g, /f (file id 3), the same-parent rename of "f" over the nonempty
directory "d" fails NotEmpty leaving the state unchanged, and the rename of
"d" over the file "f" succeeds, overwriting "f" with directory 1. -/
theorem claim_C1_witness :
    MoveEntry fsMix rootId rootId piF piD = (some Err.eNotEmpty, fsMix) ∧
    (MoveEntry fsMix rootId rootId piD piF).1 = none ∧
    (∃ dd2, (MoveEntry fsMix rootId rootId piD piF).2.dirs rootId = some dd2 ∧
      lookupEntry dd2.contents piF.Entry = some (Ref.dir 1)) := by
  have h1 := claim_C1_amended fsMix rootId rootId piF piD (by decide) (by decide)
    (by decide) (by decide) (by decide) (fun _ => by decide) _ _ rfl rfl rfl rfl
    _ rfl (by decide) (by decide) _ rfl
  have h2 := claim_C1_amended fsMix rootId rootId piD piF (by decide) (by decide)
    (by decide) (by decide) (by decide) (fun _ => by decide) _ _ rfl rfl rfl rfl
    _ rfl (by decide) (by decide) _ rfl
  refine ⟨h1.1 1 _ rfl rfl rfl (by decide), (h2.2 3 rfl).1, (h2.2 3 rfl).2.1⟩

/-! ## Claim C10: same-name same-parent rename is an unconditional no-op -/

/-- Claim C10: in the same-parent rename path, identical source and
destination entry names return success immediately, before the parent's lock,
deleted-mark or entry-existence checks; so for every parent (even one marked
deleted or absent from the heap) and every name, rename(n, n) succeeds and
leaves the filesystem unchanged. -/
theorem claim_C10_rename_same_name_noop (fs : FS) (i : Nat) (src dst : PathInfo)
    (h : src.Entry = dst.Entry) : renameEntry fs i src dst = (none, fs) := by
  unfold renameEntry
  rw [if_pos h]

/-- Witness for claim C10: renaming the absent name "n" onto itself inside the
nonexistent parent 7 of a fresh filesystem succeeds as a no-op. -/
theorem claim_C10_witness :
    renameEntry initFS 7
      { Entry := ['n'], ParentPath := ['.'], MustBeDir := false, IsRelative := true }
      { Entry := ['n'], ParentPath := ['.'], MustBeDir := false, IsRelative := true }
      = (none, initFS) :=
  claim_C10_rename_same_name_noop initFS 7 _ _ rfl

/-! ## Claim C3: lock ordering of cross-parent MoveEntry -/

/-- Counterexample for claim C3: MoveEntry does not acquire the two parent
write-locks in a globally consistent total order; for the parent pair 0 and 1
the acquisition sequence depends on which parent is the source. -/
theorem claim_C3_counterexample : ¬ GloballyOrderedLocking := by
  intro h
  have h01 := h 0 1 (by decide)
  simp [moveEntryLockOrder] at h01

/-- Claim C3 (amended): in the cross-parent case MoveEntry always acquires the
source parent's write-lock first and then the destination parent's, in
argument order rather than in an order determined by stable node identities;
hence two concurrent MoveEntry calls over the same two parents in opposite
source/destination roles acquire the pair in opposite orders. -/
theorem claim_C3_amended (a b : Nat) (h : a ≠ b) :
    moveEntryLockOrder a b = [a, b] ∧ moveEntryLockOrder b a = [b, a] := by
  constructor
  · simp [moveEntryLockOrder, h]
  · simp [moveEntryLockOrder, Ne.symm h]

/-- Witness for claim C3 (amended): the concrete parent pair 0, 1. -/
theorem claim_C3_witness :
    moveEntryLockOrder 0 1 = [0, 1] ∧ moveEntryLockOrder 1 0 = [1, 0] :=
  claim_C3_amended 0 1 (by decide)

/-! ## Claim C2: missing rename source -/

/-- Claim C2 (code bug evaluation): with the destination-side pre-checks
passing and the source entry absent, the cross-parent MoveEntry path fails
with the NotFound kind (fserrors.ENoEnt), but the same-parent renameEntry path
returns a bare fmt.Errorf error carrying no fserrors kind
(src/inode/directory_inode.go:452), contradicting the claimed NotFound kind. -/
theorem claim_C2_missing_source :
    renameEntry initFS rootId
      { Entry := ['x'], ParentPath := ['.'], MustBeDir := false, IsRelative := true }
      { Entry := ['y'], ParentPath := ['.'], MustBeDir := false, IsRelative := true }
      = (some Err.generic, initFS) ∧
    MoveEntry (AddDirectory initFS rootId ['a']).2 rootId 1
      { Entry := ['x'], ParentPath := ['.'], MustBeDir := false, IsRelative := true }
      { Entry := ['y'], ParentPath := ['.'], MustBeDir := false, IsRelative := true }
      = (some Err.eNoEnt, (AddDirectory initFS rootId ['a']).2) := by
  constructor <;> rfl

/-! ## Claim C7: ReadAt -/

/-- Claim C7 (code bug evaluation): ReadAt on a fresh file inode (empty buffer
backed by the capacity-0 `[]byte{}` literal) with a 1-byte buffer at offset 1
panics in Go (slice bounds out of range on `i.data[1:1]`, modelled as `none`)
instead of returning 0 bytes and EndOfFile as the claim states; at offset 0 ==
len(data) it does return 0 bytes and EndOfFile. -/
theorem claim_C7_readAt_bounds :
    FileReadAt [] 0 (some [0]) 1 = none ∧
    FileReadAt [] 0 (some [0]) 0 = some (0, some Err.eof, some [0]) := by
  constructor <;> decide

/-! ## Claim C4: mode gating of open-file-handle operations -/

/-- Claim C4: every open-file-handle operation is gated on the handle's open
mode and fails with the InvalidArgument kind on a mode violation: read_all,
read and read_at fail on a write-only handle; write and write_at fail on a
read-only handle; truncate_and_write_all and write_at fail on an append-mode
handle. -/
theorem claim_C4_mode_gating (h : FileHandle) (buf : Option (List Nat)) (off : Int) :
    (IsWriteOnly h.mode = true →
      hReadAll h = Except.error Err.eInval ∧
      hRead h buf = Except.error Err.eInval ∧
      hReadAt h buf off = Except.error Err.eInval) ∧
    (IsReadOnly h.mode = true →
      hWrite h buf = Except.error Err.eInval ∧
      hWriteAt h buf off = Except.error Err.eInval) ∧
    (IsAppendMode h.mode = true →
      hTruncateAndWriteAll h buf = Except.error Err.eInval ∧
      hWriteAt h buf off = Except.error Err.eInval) := by
  refine ⟨fun hw => ⟨?_, ?_, ?_⟩, fun hr => ⟨?_, ?_⟩, fun ha => ⟨?_, ?_⟩⟩
  · simp [hReadAll, hw]
  · simp [hRead, hw]
  · simp [hReadAt, hw]
  · simp [hWrite, hr]
  · simp [hWriteAt, hr]
  · by_cases hr : IsReadOnly h.mode
    · simp [hTruncateAndWriteAll, hr]
    · simp [hTruncateAndWriteAll, hr, ha]
  · by_cases hr : IsReadOnly h.mode
    · simp [hWriteAt, hr]
    · simp [hWriteAt, hr, ha]

/-- Witness for claim C4: a write-only append handle (mode O_WRONLY|O_APPEND =
1025) rejects read_all, read, read_at, truncate_and_write_all and write_at,
and a read-only handle (mode 0) rejects write and write_at. -/
theorem claim_C4_witness :
    hReadAll { mode := 1025, offset := 0, data := [7] } = Except.error Err.eInval ∧
    hRead { mode := 1025, offset := 0, data := [7] } (some []) = Except.error Err.eInval ∧
    hReadAt { mode := 1025, offset := 0, data := [7] } (some []) 0 = Except.error Err.eInval ∧
    hTruncateAndWriteAll { mode := 1025, offset := 0, data := [7] } (some []) = Except.error Err.eInval ∧
    hWriteAt { mode := 1025, offset := 0, data := [7] } (some []) 0 = Except.error Err.eInval ∧
    hWrite { mode := 0, offset := 0, data := [7] } (some []) = Except.error Err.eInval ∧
    hWriteAt { mode := 0, offset := 0, data := [7] } (some []) 0 = Except.error Err.eInval := by
  have h1 := claim_C4_mode_gating { mode := 1025, offset := 0, data := [7] } (some []) 0
  have h0 := claim_C4_mode_gating { mode := 0, offset := 0, data := [7] } (some []) 0
  refine ⟨(h1.1 (by decide)).1, (h1.1 (by decide)).2.1, (h1.1 (by decide)).2.2,
    (h1.2.2 (by decide)).1, (h1.2.2 (by decide)).2, (h0.2.1 (by decide)).1,
    (h0.2.1 (by decide)).2⟩

/-! ## Claim C5: delete_file leaves file inodes readable through handles -/

/-- Claim C5: a successful DeleteFile removes only the parent directory's
entry-table row; every file inode's byte buffer is untouched, so read_all
through any open handle returns exactly the bytes it returned before. -/
theorem claim_C5_deleteFile_preserves_data (fs : FS) (p : Nat) (entry : EntryName)
    (h : (DeleteFile fs p entry).1 = none) :
    ((DeleteFile fs p entry).2.files = fs.files) ∧
    (∀ fid B, FSReadAll fs fid = some B → FSReadAll (DeleteFile fs p entry).2 fid = some B) ∧
    (∀ q, q ≠ p → (DeleteFile fs p entry).2.dirs q = fs.dirs q) ∧
    (∃ d, fs.dirs p = some d ∧
      (DeleteFile fs p entry).2.dirs p =
        some { d with contents := eraseEntry d.contents entry }) := by
  unfold DeleteFile doDeleteFile at h ⊢
  cases hd : fs.dirs p with
  | none => rw [hd] at h; simp at h
  | some d =>
    simp only [hd] at h ⊢
    cases hl : lookupEntry d.contents entry with
    | none => rw [hl] at h; simp at h
    | some r =>
      cases r with
      | dir c => rw [hl] at h; simp at h
      | file f =>
        simp only [hl] at h ⊢
        refine ⟨rfl, fun fid B hB => ?_, fun q hq => ?_, ⟨d, rfl, ?_⟩⟩
        · simpa [FSReadAll, FS.setDir] using hB
        · simp [FS.setDir_dirs, hq]
        · simp [FS.setDir_dirs]

/-- Witness for claim C5: deleting /f from a fresh filesystem holding the file
/f (inode 1) keeps inode 1's bytes readable. -/
theorem claim_C5_witness :
    FSReadAll fsF 1 = some [] ∧ FSReadAll (DeleteFile fsF rootId ['f']).2 1 = some [] :=
  ⟨rfl, (claim_C5_deleteFile_preserves_data fsF rootId ['f'] rfl).2.1 1 [] rfl⟩

/-! ## Claim C9: MoveEntry can detach a subtree into an unreachable cycle -/

/-- Claim C9: MoveEntry performs no check that the destination parent lies
outside the moved directory's subtree: in the reachable state with
directories /a (id 1) and /a/b (id 2), moving /a into /a/b under the name "x"
succeeds, and afterwards neither the moved directory nor its descendant is
reachable from the root by entry-table steps (only the root, id 0, is). -/
theorem claim_C9_subtree_detach :
    Reachable fsAB ∧
    (MoveEntry fsAB rootId 2 piA piX).1 = none ∧
    Reachable fsDetached ∧
    (∀ n : Nat, reachableDirs fsDetached n = [rootId]) ∧
    (∀ n : Nat, 1 ∉ reachableDirs fsDetached n ∧ 2 ∉ reachableDirs fsDetached n) := by
  have hreach : Reachable fsAB := by
    have h0 : Reachable initFS := Reachable.init
    have h1 := Reachable.addDirectory rootId ['a'] h0
    have h2 := Reachable.addDirectory 1 ['b'] h1
    exact h2
  have hfix : ∀ n : Nat, reachableDirs fsDetached n = [rootId] := by
    intro n
    induction n with
    | zero => rfl
    | succ n ih =>
      show (let prev := reachableDirs fsDetached n
            (prev ++ prev.flatMap (childDirIds fsDetached)).dedup) = [rootId]
      rw [ih]
      decide
  refine ⟨hreach, rfl, ?_, hfix, fun n => ?_⟩
  · exact Reachable.moveEntry rootId 2 piA piX hreach
  · rw [hfix n]
    exact ⟨by decide, by decide⟩

/-! ## Clean: collapse-phase lemmas -/

theorem collapseSeps_head (l : List Char) :
    ∀ x t, collapseSeps l true = x :: t → x ≠ '/' := by
  induction l with
  | nil => intro x t h; cases h
  | cons r rest ih =>
    intro x t h
    by_cases hr : r = '/'
    · rw [collapseSeps, if_pos (by simp [hr])] at h
      exact ih x t h
    · rw [collapseSeps, if_neg (by simp [hr])] at h
      cases h
      exact hr

theorem collapseSeps_noDoubleSep (l : List Char) (flag : Bool) :
    NoDoubleSep (collapseSeps l flag) := by
  induction l generalizing flag with
  | nil => exact List.chain'_nil
  | cons r rest ih =>
    by_cases hc : r = '/' ∧ flag = true
    · rw [collapseSeps, if_pos (by simp [hc.1, hc.2])]
      exact ih flag
    · rw [collapseSeps, if_neg (by simp only [Bool.and_eq_true, decide_eq_true_eq]; exact hc)]
      rw [NoDoubleSep, List.chain'_cons']
      refine ⟨fun y hy hcontra => ?_, ih _⟩
      obtain ⟨hr, hysep⟩ := hcontra
      subst hr
      subst hysep
      have hd : (decide ('/' = '/')) = true := by decide
      rw [hd] at hy
      cases hcs : collapseSeps rest true with
      | nil => rw [hcs] at hy; simp at hy
      | cons a t =>
        rw [hcs] at hy
        simp only [List.head?_cons, Option.mem_def, Option.some.injEq] at hy
        exact collapseSeps_head rest a t hcs hy

theorem collapseSeps_fixed (l : List Char) (flag : Bool)
    (hflag : flag = true → l.head? ≠ some '/') (h : NoDoubleSep l) :
    collapseSeps l flag = l := by
  induction l generalizing flag with
  | nil => rfl
  | cons r rest ih =>
    have hcond : ¬(r = '/' ∧ flag = true) := by
      rintro ⟨hr, hf⟩
      exact hflag hf (by simp [hr])
    rw [collapseSeps, if_neg (by simp only [Bool.and_eq_true, decide_eq_true_eq]; exact hcond)]
    congr 1
    rw [NoDoubleSep, List.chain'_cons'] at h
    refine ih (decide (r = '/')) (fun hd hh => ?_) h.2
    rw [decide_eq_true_eq] at hd
    subst hd
    cases hrest : rest.head? with
    | none => rw [hrest] at hh; cases hh
    | some z =>
      rw [hrest] at hh
      injection hh with hz
      exact h.1 z (by rw [hrest]; rfl) ⟨rfl, hz⟩

/-! ## Clean: splitOn structure lemmas -/

theorem splitOn_sep_cons (t : List Char) :
    ('/' :: t).splitOn '/' = [] :: t.splitOn '/' := by
  simp [List.splitOn, List.splitOnP_cons]

theorem splitOn_other_cons (c : Char) (t : List Char) (h : c ≠ '/') :
    (c :: t).splitOn '/' = List.modifyHead (List.cons c) (t.splitOn '/') := by
  simp [List.splitOn, List.splitOnP_cons, h]

theorem splitOn_sep_ne_nil (l : List Char) : l.splitOn '/' ≠ [] :=
  List.splitOnP_ne_nil _ l

theorem splitOn_sepFree (l : List Char) : ∀ p ∈ l.splitOn '/', '/' ∉ p := by
  induction l with
  | nil =>
    intro p hp
    simp only [List.splitOn_nil, List.mem_singleton] at hp
    subst hp
    exact List.not_mem_nil '/'
  | cons c t ih =>
    intro p hp
    by_cases hc : c = '/'
    · subst hc
      rw [splitOn_sep_cons] at hp
      rcases List.mem_cons.mp hp with h0 | h0
      · subst h0; exact List.not_mem_nil '/'
      · exact ih p h0
    · rw [splitOn_other_cons c t hc] at hp
      cases hsp : t.splitOn '/' with
      | nil => exact absurd hsp (splitOn_sep_ne_nil t)
      | cons p0 ps =>
        rw [hsp, List.modifyHead_cons] at hp
        rcases List.mem_cons.mp hp with h0 | h0
        · subst h0
          intro hmem
          rcases List.mem_cons.mp hmem with h1 | h1
          · exact hc h1.symm
          · exact ih p0 (by rw [hsp]; exact List.mem_cons_self p0 ps) h1
        · exact ih p (by rw [hsp]; exact List.mem_cons_of_mem p0 h0)

theorem nonEmptyButLast_cons (z : List Char) (w : List (List Char)) :
    nonEmptyButLast (z :: w) → nonEmptyButLast w := by
  cases w with
  | nil => intro _; trivial
  | cons a b => intro h; exact h.2

theorem splitOn_structure (l : List Char) (h : NoDoubleSep l) :
    midPartsNonEmpty (l.splitOn '/') ∧
    (∀ p ps', l.splitOn '/' = p :: ps' → p = [] → l.head? = some '/' ∨ l = []) := by
  induction l with
  | nil =>
    refine ⟨trivial, fun p ps' hp hpe => Or.inr rfl⟩
  | cons c t ih =>
    have htail : NoDoubleSep t := h.tail
    obtain ⟨ihm, ihf⟩ := ih htail
    by_cases hc : c = '/'
    · subst hc
      rw [splitOn_sep_cons]
      constructor
      · show nonEmptyButLast (t.splitOn '/')
        cases hsp : t.splitOn '/' with
        | nil => trivial
        | cons p0 ps =>
          cases hps : ps with
          | nil => trivial
          | cons q qs =>
            refine ⟨?_, ?_⟩
            · intro hp0
              rcases ihf p0 ps hsp hp0 with hh | hh
              · rw [NoDoubleSep, List.chain'_cons'] at h
                cases hhead : t.head? with
                | none => rw [hhead] at hh; cases hh
                | some z =>
                  rw [hhead] at hh
                  injection hh with hz
                  exact h.1 z (by rw [hhead]; rfl) ⟨rfl, hz⟩
              · subst hh
                simp only [List.splitOn_nil] at hsp
                injection hsp with h1 h2
                rw [hps] at h2
                cases h2
            · rw [hps] at hsp
              have := ihm
              rw [hsp] at this
              exact this
      · intro p ps' hp hpe
        exact Or.inl rfl
    · rw [splitOn_other_cons c t hc]
      cases hsp : t.splitOn '/' with
      | nil => exact absurd hsp (splitOn_sep_ne_nil t)
      | cons p0 ps =>
        rw [List.modifyHead_cons]
        constructor
        · show nonEmptyButLast ps
          have := ihm
          rw [hsp] at this
          exact this
        · intro p ps' hp hpe
          injection hp with h1 h2
          rw [← h1] at hpe
          cases hpe

theorem nonEmptyButLast_filter (P : List Char → Bool) :
    ∀ ps : List (List Char), nonEmptyButLast ps → nonEmptyButLast (ps.filter P) := by
  intro ps
  induction ps with
  | nil => intro _; trivial
  | cons p rest ih =>
    intro h
    rw [List.filter_cons]
    cases hP : P p with
    | false =>
      rw [if_neg Bool.false_ne_true]
      exact ih (nonEmptyButLast_cons p rest h)
    | true =>
      rw [if_pos rfl]
      cases hfr : rest.filter P with
      | nil => trivial
      | cons z w =>
        have hrne : rest ≠ [] := by
          intro hh
          rw [hh] at hfr
          cases hfr
        have hp : p ≠ [] := by
          cases rest with
          | nil => exact absurd rfl hrne
          | cons q qs => exact h.1
        have hrest : nonEmptyButLast rest := nonEmptyButLast_cons p rest h
        have hf := ih hrest
        rw [hfr] at hf
        exact ⟨hp, hf⟩

theorem midPartsNonEmpty_filter (P : List Char → Bool) (ps : List (List Char))
    (h : midPartsNonEmpty ps) : midPartsNonEmpty (ps.filter P) := by
  cases ps with
  | nil => trivial
  | cons p rest =>
    have hrest : nonEmptyButLast rest := h
    rw [List.filter_cons]
    cases hP : P p with
    | true =>
      rw [if_pos rfl]
      show nonEmptyButLast (rest.filter P)
      exact nonEmptyButLast_filter P rest hrest
    | false =>
      rw [if_neg Bool.false_ne_true]
      show midPartsNonEmpty (rest.filter P)
      have hf := nonEmptyButLast_filter P rest hrest
      cases hfr : rest.filter P with
      | nil => trivial
      | cons z w =>
        rw [hfr] at hf
        show nonEmptyButLast w
        exact nonEmptyButLast_cons z w hf

/-! ## Clean: intercalate lemmas -/

theorem sepFree_noDoubleSep (p : List Char) (h : '/' ∉ p) : NoDoubleSep p := by
  induction p with
  | nil => exact List.chain'_nil
  | cons a t ih =>
    rw [NoDoubleSep, List.chain'_cons']
    refine ⟨fun y _ hc => ?_, ih (fun hm => h (List.mem_cons_of_mem a hm))⟩
    exact h (List.mem_cons.mpr (Or.inl hc.1.symm))

theorem intercalate_sep_nil : List.intercalate ['/'] ([] : List (List Char)) = [] := by
  simp [List.intercalate]

theorem intercalate_sep_single (p : List Char) : List.intercalate ['/'] [p] = p := by
  simp [List.intercalate]

theorem intercalate_sep_cons (p q : List Char) (t : List (List Char)) :
    List.intercalate ['/'] (p :: q :: t) = p ++ '/' :: List.intercalate ['/'] (q :: t) := by
  simp [List.intercalate, List.intersperse_cons_cons]

theorem intercalate_sep_head (q : List Char) (t : List (List Char)) (hq : q ≠ []) :
    (List.intercalate ['/'] (q :: t)).head? = q.head? := by
  cases t with
  | nil => rw [intercalate_sep_single]
  | cons r s =>
    rw [intercalate_sep_cons, List.head?_append]
    cases q with
    | nil => exact absurd rfl hq
    | cons a b => rfl

theorem noDoubleSep_intercalate : ∀ ps : List (List Char), (∀ p ∈ ps, '/' ∉ p) →
    midPartsNonEmpty ps → NoDoubleSep (List.intercalate ['/'] ps) := by
  intro ps
  induction ps with
  | nil =>
    intro _ _
    rw [intercalate_sep_nil]
    exact List.chain'_nil
  | cons p rest ih =>
    intro hsep hmid
    cases rest with
    | nil =>
      rw [intercalate_sep_single]
      exact sepFree_noDoubleSep p (hsep p (List.mem_cons_self p []))
    | cons q t =>
      rw [intercalate_sep_cons]
      rw [NoDoubleSep, List.chain'_append]
      refine ⟨sepFree_noDoubleSep p (hsep p (List.mem_cons_self p _)), ?_, ?_⟩
      · rw [List.chain'_cons']
        constructor
        · intro y hy hc
          by_cases hqe : q = []
          · subst hqe
            cases t with
            | nil =>
              rw [intercalate_sep_single] at hy
              simp at hy
            | cons r s => exact absurd rfl hmid.1
          · rw [intercalate_sep_head q t hqe] at hy
            exact (hsep q (List.mem_cons_of_mem p (List.mem_cons_self q t)))
              (hc.2 ▸ List.mem_of_mem_head? hy)
        · refine ih (fun r hr => hsep r (List.mem_cons_of_mem p hr)) ?_
          show nonEmptyButLast t
          exact nonEmptyButLast_cons q t hmid
      · intro x hx y hy hc
        have hxp : x ∈ p := by
          obtain ⟨hne, hxe⟩ := List.mem_getLast?_eq_getLast hx
          rw [hxe]
          exact List.getLast_mem hne
        exact (hsep p (List.mem_cons_self p _)) (hc.1 ▸ hxp)

/-! ## Clean: strip-leading-parent-refs lemmas -/

theorem take_four_shape (l : List Char) (h : l.take 4 = ['/', '.', '.', '/']) :
    l = '/' :: '.' :: '.' :: '/' :: l.drop 4 := by
  rcases l with _ | ⟨a, _ | ⟨b, _ | ⟨c, _ | ⟨d, t⟩⟩⟩⟩ <;> simp_all

theorem strip_eq_pos (l : List Char) (h : l.take 4 = ['/', '.', '.', '/']) :
    stripLeadingParentRefs l = stripLeadingParentRefs ('/' :: l.drop 4) := by
  rw [stripLeadingParentRefs]
  rw [dif_pos h]

theorem strip_eq_neg (l : List Char) (h : ¬ l.take 4 = ['/', '.', '.', '/']) :
    stripLeadingParentRefs l = l := by
  rw [stripLeadingParentRefs]
  rw [dif_neg h]

theorem strip_take4 (l : List Char) :
    (stripLeadingParentRefs l).take 4 ≠ ['/', '.', '.', '/'] := by
  induction l using stripLeadingParentRefs.induct with
  | case1 x hx ih =>
    rw [strip_eq_pos x hx]
    exact ih
  | case2 x hx =>
    rw [strip_eq_neg x hx]
    exact hx

theorem strip_noDoubleSep (l : List Char) :
    NoDoubleSep l → NoDoubleSep (stripLeadingParentRefs l) := by
  induction l using stripLeadingParentRefs.induct with
  | case1 x hx ih =>
    intro h
    rw [strip_eq_pos x hx]
    refine ih ?_
    rw [take_four_shape x hx] at h
    exact h.tail.tail.tail
  | case2 x hx =>
    intro h
    rw [strip_eq_neg x hx]
    exact h

theorem strip_parts (l : List Char) :
    ['.'] ∉ l.splitOn '/' → ['.'] ∉ (stripLeadingParentRefs l).splitOn '/' := by
  induction l using stripLeadingParentRefs.induct with
  | case1 x hx ih =>
    intro h
    rw [strip_eq_pos x hx]
    refine ih ?_
    rw [take_four_shape x hx] at h
    rw [splitOn_sep_cons] at h ⊢
    rw [splitOn_other_cons _ _ (by decide), splitOn_other_cons _ _ (by decide),
      splitOn_sep_cons] at h
    simp only [List.modifyHead_cons] at h
    intro hc
    rcases List.mem_cons.mp hc with h0 | h0
    · exact List.noConfusion h0
    · exact h (List.mem_cons_of_mem _ (List.mem_cons_of_mem _ h0))
  | case2 x hx =>
    intro h
    rw [strip_eq_neg x hx]
    exact h

/-! ## Clean: assembly of the idempotence proof -/

theorem Clean_eq (path : List Char) :
    Clean path =
      (if stripLeadingParentRefs
            (List.intercalate ['/']
              (((collapseSeps path false).splitOn '/').filter (fun part => decide (part ≠ ['.'])))) =
          ['/', '.', '.'] then
        ['/']
      else
        stripLeadingParentRefs
          (List.intercalate ['/']
            (((collapseSeps path false).splitOn '/').filter (fun part => decide (part ≠ ['.']))))) :=
  rfl

theorem cleanedForm_stage (fp : List (List Char))
    (hsepfree : ∀ p ∈ fp, '/' ∉ p) (hmid : midPartsNonEmpty fp)
    (hdotfree : ['.'] ∉ fp) :
    CleanedForm (if stripLeadingParentRefs (List.intercalate ['/'] fp) = ['/', '.', '.'] then ['/']
      else stripLeadingParentRefs (List.intercalate ['/'] fp)) := by
  have hndq : NoDoubleSep (List.intercalate ['/'] fp) :=
    noDoubleSep_intercalate fp hsepfree hmid
  have hdotq : ['.'] ∉ (List.intercalate ['/'] fp).splitOn '/' := by
    cases fp with
    | nil =>
      rw [intercalate_sep_nil]
      decide
    | cons f0 ft =>
      rw [List.splitOn_intercalate _ '/' hsepfree (List.cons_ne_nil f0 ft)]
      exact hdotfree
  by_cases hfin : stripLeadingParentRefs (List.intercalate ['/'] fp) = ['/', '.', '.']
  · rw [if_pos hfin]
    exact ⟨List.chain'_singleton '/', by decide, by decide, by decide⟩
  · rw [if_neg hfin]
    exact ⟨strip_noDoubleSep _ hndq, strip_parts _ hdotq, strip_take4 _, hfin⟩

theorem cleanedForm_clean (s : List Char) : CleanedForm (Clean s) := by
  rw [Clean_eq]
  refine cleanedForm_stage _ (fun p hp => splitOn_sepFree _ p (List.mem_of_mem_filter hp))
    (midPartsNonEmpty_filter _ _ (splitOn_structure _ (collapseSeps_noDoubleSep s false)).1)
    (fun hc => absurd (List.mem_filter.mp hc).2 (by decide))

theorem clean_fixed (o : List Char) (h : CleanedForm o) : Clean o = o := by
  obtain ⟨hnd, hdot, htake, hne⟩ := h
  rw [Clean_eq]
  rw [collapseSeps_fixed o false (fun hh => (Bool.false_ne_true hh).elim) hnd]
  have hfilter : (o.splitOn '/').filter (fun part => decide (part ≠ ['.'])) = o.splitOn '/' := by
    rw [List.filter_eq_self]
    intro a ha
    exact decide_eq_true (fun hae => hdot (hae ▸ ha))
  rw [hfilter]
  rw [List.intercalate_splitOn]
  rw [strip_eq_neg o htake]
  rw [if_neg hne]

/-! ## Claim C8: Clean is idempotent -/

/-- Claim C8: the lexical path-cleaning function is idempotent: for every path
string s, clean(clean(s)) == clean(s). -/
theorem claim_C8_clean_idempotent (s : String) :
    cleanString (cleanString s) = cleanString s := by
  unfold cleanString
  congr 1
  show Clean (Clean s.data) = Clean s.data
  exact clean_fixed _ (cleanedForm_clean s.data)

/-! ## Claim C6: the dot/dot-dot invariant over reachable states

The proofs below carry the invariant `Inv` across each mutating operation.
The key device: every successful mutation's effect on entry-table lookups is
captured by an update formula, and `Inv` transfers along any state change
whose lookups satisfy such a formula. -/

theorem hasNonSpecialEntry_of_lookup (es : Entries) (n : EntryName) (r : Ref)
    (h : lookupEntry es n = some r) (h1 : n ≠ selfEntry) (h2 : n ≠ parentEntry) :
    hasNonSpecialEntry es = true := by
  induction es with
  | nil => cases h
  | cons e rest ih =>
    obtain ⟨k, v⟩ := e
    rw [hasNonSpecialEntry, List.any_cons]
    simp only [lookupEntry] at h
    by_cases hk : k = n
    · subst hk
      have : (decide (k ≠ selfEntry) && decide (k ≠ parentEntry)) = true := by
        simp [h1, h2]
      rw [this]
      rfl
    · rw [if_neg hk] at h
      have := ih h
      rw [hasNonSpecialEntry] at this
      rw [this]
      simp

theorem isSome_eq_none {o o' : Option DirectoryInode}
    (h : o'.isSome = o.isSome) (ho : o = none) : o' = none := by
  subst ho
  cases o' with
  | none => rfl
  | some d => simp at h

/-- Transfer of `Inv` along a state change whose lookup changes introduce no
directory references and touch no special names.  `u j n = some r` means the
entry `n` of directory `j` now reads `r`; `u j n = none` means it is
unchanged. -/
theorem Inv_transfer_nodir (fs fs' : FS) (u : Nat → EntryName → Option (Option Ref))
    (hu : ∀ j n r, u j n = some r →
      (n ≠ selfEntry ∧ n ≠ parentEntry) ∧ ∀ x, r ≠ some (Ref.dir x))
    (hdom : ∀ j, (fs'.dirs j).isSome = (fs.dirs j).isSome)
    (hnext : fs.nextId ≤ fs'.nextId)
    (hchar : ∀ j d', fs'.dirs j = some d' → ∃ d, fs.dirs j = some d ∧ ∀ n,
      lookupEntry d'.contents n = (u j n).getD (lookupEntry d.contents n))
    (hInv : Inv fs) : Inv fs' := by
  have hspecial : ∀ j n, n = selfEntry ∨ n = parentEntry → u j n = none := by
    intro j n hn
    cases hun : u j n with
    | none => rfl
    | some r =>
      rcases hn with hn | hn
      · exact absurd hn ((hu j n r hun).1.1)
      · exact absurd hn ((hu j n r hun).1.2)
  have hlook_special : ∀ j d' n, fs'.dirs j = some d' → (n = selfEntry ∨ n = parentEntry) →
      ∃ d, fs.dirs j = some d ∧ lookupEntry d'.contents n = lookupEntry d.contents n := by
    intro j d' n hj hn
    obtain ⟨d, hd, hl⟩ := hchar j d' hj
    refine ⟨d, hd, ?_⟩
    rw [hl n, hspecial j n hn]
    rfl
  have hdirpair : ∀ j d' n x, fs'.dirs j = some d' →
      lookupEntry d'.contents n = some (Ref.dir x) →
      ∃ d, fs.dirs j = some d ∧ lookupEntry d.contents n = some (Ref.dir x) := by
    intro j d' n x hj hl
    obtain ⟨d, hd, hlf⟩ := hchar j d' hj
    refine ⟨d, hd, ?_⟩
    rw [hlf n] at hl
    cases hun : u j n with
    | none => rw [hun] at hl; exact hl
    | some r =>
      rw [hun] at hl
      exact absurd hl ((hu j n r hun).2 x)
  refine ⟨?_, ?_, ?_, ?_, ?_, ?_, ?_, ?_, ?_⟩
  · intro id hid
    exact isSome_eq_none (hdom id) (hInv.dom_lt id (le_trans hnext hid))
  · rw [hdom]; exact hInv.root_ex
  · intro id d' hd'
    obtain ⟨d, hd, hl⟩ := hlook_special id d' selfEntry hd' (Or.inl rfl)
    rw [hl]
    exact hInv.self_loop id d hd
  · intro id d' hd'
    obtain ⟨d, hd, hl⟩ := hlook_special id d' parentEntry hd' (Or.inr rfl)
    rw [hl]
    exact hInv.parent_ex id d hd
  · intro d' hd'
    obtain ⟨d, hd, hl⟩ := hlook_special rootId d' parentEntry hd' (Or.inr rfl)
    rw [hl]
    exact hInv.root_parent d hd
  · intro p dp n c hp hl
    obtain ⟨d, hd, hl0⟩ := hdirpair p dp n c hp hl
    rw [hdom]
    exact hInv.ref_closed p d n c hd hl0
  · intro p dp n c dc hp hn1 hn2 hl hc
    obtain ⟨d, hd, hl0⟩ := hdirpair p dp n c hp hl
    obtain ⟨d2, hd2, hl2⟩ := hlook_special c dc parentEntry hc (Or.inr rfl)
    rw [hl2]
    exact hInv.coherent p d n c d2 hd hn1 hn2 hl0 hd2
  · intro p1 d1 n1 p2 d2 n2 c hp1 hp2 hn11 hn12 hn21 hn22 hl1 hl2
    obtain ⟨e1, he1, hle1⟩ := hdirpair p1 d1 n1 c hp1 hl1
    obtain ⟨e2, he2, hle2⟩ := hdirpair p2 d2 n2 c hp2 hl2
    exact hInv.unique_ref p1 e1 n1 p2 e2 n2 c he1 he2 hn11 hn12 hn21 hn22 hle1 hle2
  · intro p dp n hp hn1 hn2 hl
    obtain ⟨d, hd, hl0⟩ := hdirpair p dp n rootId hp hl
    exact hInv.no_root_ref p d n hd hn1 hn2 hl0

/-- Transfer of `Inv` along a successful directory move: the source parent
loses `srcE`, the destination parent gains `dstE` referencing the moved
directory `c`, and `c`'s ".." now references the destination parent.  The
formula covers the same-parent case (`sp = dp`) and all aliasing of `c` with
the parents. -/
theorem Inv_transfer_movedir (fs fs' : FS) (sp dp c : Nat) (srcE dstE : EntryName)
    (hs1 : srcE ≠ selfEntry) (hs2 : srcE ≠ parentEntry)
    (hd1 : dstE ≠ selfEntry) (hd2 : dstE ≠ parentEntry)
    (hdp : (fs.dirs dp).isSome)
    (hsrcpair : ∃ sd, fs.dirs sp = some sd ∧ lookupEntry sd.contents srcE = some (Ref.dir c))
    (hdom : ∀ j, (fs'.dirs j).isSome = (fs.dirs j).isSome)
    (hnext : fs.nextId ≤ fs'.nextId)
    (hchar : ∀ j d', fs'.dirs j = some d' → ∃ d, fs.dirs j = some d ∧ ∀ n,
      lookupEntry d'.contents n =
        if j = sp ∧ n = srcE then none
        else if j = c ∧ n = parentEntry then some (Ref.dir dp)
        else if j = dp ∧ n = dstE then some (Ref.dir c)
        else lookupEntry d.contents n)
    (hInv : Inv fs) : Inv fs' := by
  obtain ⟨sd, hsd, hsrcl⟩ := hsrcpair
  have hc0 : c ≠ rootId := fun hh => hInv.no_root_ref sp sd srcE hsd hs1 hs2 (hh ▸ hsrcl)
  have hcsome : (fs.dirs c).isSome := hInv.ref_closed sp sd srcE c hsd hsrcl
  have hself : ∀ j d', fs'.dirs j = some d' →
      ∃ d, fs.dirs j = some d ∧
        lookupEntry d'.contents selfEntry = lookupEntry d.contents selfEntry := by
    intro j d' hj
    obtain ⟨d, hd, hl⟩ := hchar j d' hj
    refine ⟨d, hd, ?_⟩
    rw [hl selfEntry, if_neg (fun hh => hs1 hh.2.symm),
      if_neg (fun hh => absurd hh.2 (by decide)), if_neg (fun hh => hd1 hh.2.symm)]
  have hparent : ∀ j d', fs'.dirs j = some d' →
      ∃ d, fs.dirs j = some d ∧
        lookupEntry d'.contents parentEntry =
          (if j = c then some (Ref.dir dp) else lookupEntry d.contents parentEntry) := by
    intro j d' hj
    obtain ⟨d, hd, hl⟩ := hchar j d' hj
    refine ⟨d, hd, ?_⟩
    rw [hl parentEntry, if_neg (fun hh => hs2 hh.2.symm)]
    by_cases hjc : j = c
    · rw [if_pos ⟨hjc, rfl⟩, if_pos hjc]
    · rw [if_neg (fun hh => hjc hh.1), if_neg (fun hh => hd2 hh.2.symm), if_neg hjc]
  have hdirpair : ∀ j d' n x, fs'.dirs j = some d' → n ≠ selfEntry → n ≠ parentEntry →
      lookupEntry d'.contents n = some (Ref.dir x) →
      (j = dp ∧ n = dstE ∧ x = c) ∨
      (¬(j = sp ∧ n = srcE) ∧ ∃ d, fs.dirs j = some d ∧
        lookupEntry d.contents n = some (Ref.dir x)) := by
    intro j d' n x hj hn1 hn2 hl
    obtain ⟨d, hd, hlf⟩ := hchar j d' hj
    rw [hlf n] at hl
    by_cases h1 : j = sp ∧ n = srcE
    · rw [if_pos h1] at hl; cases hl
    · rw [if_neg h1] at hl
      rw [if_neg (fun hh => hn2 hh.2)] at hl
      by_cases h3 : j = dp ∧ n = dstE
      · rw [if_pos h3] at hl
        injection hl with hl
        injection hl with hl
        exact Or.inl ⟨h3.1, h3.2, hl.symm⟩
      · rw [if_neg h3] at hl
        exact Or.inr ⟨h1, d, hd, hl⟩
  refine ⟨?_, ?_, ?_, ?_, ?_, ?_, ?_, ?_, ?_⟩
  · intro id hid
    exact isSome_eq_none (hdom id) (hInv.dom_lt id (le_trans hnext hid))
  · rw [hdom]; exact hInv.root_ex
  · intro id d' hd'
    obtain ⟨d, hd, hl⟩ := hself id d' hd'
    rw [hl]
    exact hInv.self_loop id d hd
  · intro id d' hd'
    obtain ⟨d, hd, hl⟩ := hparent id d' hd'
    rw [hl]
    by_cases hic : id = c
    · rw [if_pos hic]; exact ⟨dp, rfl⟩
    · rw [if_neg hic]; exact hInv.parent_ex id d hd
  · intro d' hd'
    obtain ⟨d, hd, hl⟩ := hparent rootId d' hd'
    rw [hl, if_neg (fun hh => hc0 hh.symm)]
    exact hInv.root_parent d hd
  · intro p dp' n x hp hl
    by_cases hn1 : n = selfEntry
    · subst hn1
      obtain ⟨d, hd, hls⟩ := hself p dp' hp
      rw [hls] at hl
      rw [hdom]
      exact hInv.ref_closed p d selfEntry x hd hl
    · by_cases hn2 : n = parentEntry
      · subst hn2
        obtain ⟨d, hd, hlp⟩ := hparent p dp' hp
        rw [hlp] at hl
        by_cases hpc : p = c
        · rw [if_pos hpc] at hl
          injection hl with hl
          injection hl with hl
          rw [hdom, ← hl]
          exact hdp
        · rw [if_neg hpc] at hl
          rw [hdom]
          exact hInv.ref_closed p d parentEntry x hd hl
      · rcases hdirpair p dp' n x hp hn1 hn2 hl with ⟨_, _, hx⟩ | ⟨_, d, hd, hl0⟩
        · subst hx; rw [hdom]; exact hcsome
        · rw [hdom]; exact hInv.ref_closed p d n x hd hl0
  · intro p dp' n x dx hp hn1 hn2 hl hx
    rcases hdirpair p dp' n x hp hn1 hn2 hl with ⟨hpd, hnd, hxc⟩ | ⟨hnot, d, hd, hl0⟩
    · obtain ⟨d2, hd2, hl2⟩ := hparent x dx hx
      rw [hl2, if_pos hxc, hpd]
    · have hxc : x ≠ c := by
        intro hh
        subst hh
        exact hnot (hInv.unique_ref p d n sp sd srcE x hd hsd hn1 hn2 hs1 hs2 hl0 hsrcl)
      obtain ⟨d2, hd2, hl2⟩ := hparent x dx hx
      rw [hl2, if_neg hxc]
      exact hInv.coherent p d n x d2 hd hn1 hn2 hl0 hd2
  · intro p1 d1 n1 p2 d2 n2 x hp1 hp2 hn11 hn12 hn21 hn22 hl1 hl2
    rcases hdirpair p1 d1 n1 x hp1 hn11 hn12 hl1 with ⟨hpa, hna, hxa⟩ | ⟨hnota, e1, he1, hle1⟩
    · rcases hdirpair p2 d2 n2 x hp2 hn21 hn22 hl2 with ⟨hpb, hnb, _⟩ | ⟨hnotb, e2, he2, hle2⟩
      · exact ⟨hpa.trans hpb.symm, hna.trans hnb.symm⟩
      · rw [hxa] at hle2
        exact absurd (hInv.unique_ref p2 e2 n2 sp sd srcE c he2 hsd hn21 hn22 hs1 hs2 hle2
          hsrcl) hnotb
    · rcases hdirpair p2 d2 n2 x hp2 hn21 hn22 hl2 with ⟨hpb, hnb, hxb⟩ | ⟨hnotb, e2, he2, hle2⟩
      · rw [hxb] at hle1
        exact absurd (hInv.unique_ref p1 e1 n1 sp sd srcE c he1 hsd hn11 hn12 hs1 hs2 hle1
          hsrcl) hnota
      · exact hInv.unique_ref p1 e1 n1 p2 e2 n2 x he1 he2 hn11 hn12 hn21 hn22 hle1 hle2
  · intro p dp' n hp hn1 hn2 hl
    rcases hdirpair p dp' n rootId hp hn1 hn2 hl with ⟨_, _, hx⟩ | ⟨_, d, hd, hl0⟩
    · exact hc0 hx.symm
    · exact hInv.no_root_ref p d n hd hn1 hn2 hl0

/-- Transfer of `Inv` along a successful directory allocation: a fresh
directory with id `fs.nextId` whose "." is itself and whose ".." is `i`, and
parent `i` gains the entry `name` referencing it. -/
theorem Inv_transfer_allocdir (fs fs' : FS) (i : Nat) (name : EntryName)
    (hname1 : name ≠ selfEntry) (hname2 : name ≠ parentEntry)
    (hisome : (fs.dirs i).isSome)
    (hnew : ∃ nd, fs'.dirs fs.nextId = some nd ∧
      ∀ n, lookupEntry nd.contents n =
        if n = selfEntry then some (Ref.dir fs.nextId)
        else if n = parentEntry then some (Ref.dir i) else none)
    (hdom : ∀ j, j ≠ fs.nextId → (fs'.dirs j).isSome = (fs.dirs j).isSome)
    (hnext : fs'.nextId = fs.nextId + 1)
    (hchar : ∀ j d', j ≠ fs.nextId → fs'.dirs j = some d' → ∃ d, fs.dirs j = some d ∧ ∀ n,
      lookupEntry d'.contents n =
        if j = i ∧ n = name then some (Ref.dir fs.nextId) else lookupEntry d.contents n)
    (hInv : Inv fs) : Inv fs' := by
  obtain ⟨nd, hnd, hndl⟩ := hnew
  have hlt : ∀ j, (fs.dirs j).isSome → j < fs.nextId := by
    intro j hj
    by_contra hh
    rw [hInv.dom_lt j (Nat.le_of_not_lt hh)] at hj
    cases hj
  have hiN : i ≠ fs.nextId := Nat.ne_of_lt (hlt i hisome)
  have h0N : rootId < fs.nextId := hlt rootId hInv.root_ex
  have holdpair : ∀ j d' n x, j ≠ fs.nextId → fs'.dirs j = some d' →
      n ≠ selfEntry → n ≠ parentEntry →
      lookupEntry d'.contents n = some (Ref.dir x) →
      (j = i ∧ n = name ∧ x = fs.nextId) ∨
      (∃ d, fs.dirs j = some d ∧ lookupEntry d.contents n = some (Ref.dir x)) := by
    intro j d' n x hjN hj hn1 hn2 hl
    obtain ⟨d, hd, hlf⟩ := hchar j d' hjN hj
    rw [hlf n] at hl
    by_cases h1 : j = i ∧ n = name
    · rw [if_pos h1] at hl
      injection hl with hl
      injection hl with hl
      exact Or.inl ⟨h1.1, h1.2, hl.symm⟩
    · rw [if_neg h1] at hl
      exact Or.inr ⟨d, hd, hl⟩
  refine ⟨?_, ?_, ?_, ?_, ?_, ?_, ?_, ?_, ?_⟩
  · intro id hid
    rw [hnext] at hid
    have hidN : id ≠ fs.nextId := by omega
    exact isSome_eq_none (hdom id hidN) (hInv.dom_lt id (by omega))
  · rw [hdom rootId (Nat.ne_of_lt h0N)]
    exact hInv.root_ex
  · intro id d' hd'
    by_cases hidN : id = fs.nextId
    · subst hidN
      rw [hnd] at hd'
      injection hd' with hd'
      subst hd'
      rw [hndl selfEntry, if_pos rfl]
    · obtain ⟨d, hd, hl⟩ := hchar id d' hidN hd'
      rw [hl selfEntry, if_neg (fun hh => hname1 hh.2.symm)]
      exact hInv.self_loop id d hd
  · intro id d' hd'
    by_cases hidN : id = fs.nextId
    · subst hidN
      rw [hnd] at hd'
      injection hd' with hd'
      subst hd'
      rw [hndl parentEntry, if_neg (by decide), if_pos rfl]
      exact ⟨i, rfl⟩
    · obtain ⟨d, hd, hl⟩ := hchar id d' hidN hd'
      rw [hl parentEntry, if_neg (fun hh => hname2 hh.2.symm)]
      exact hInv.parent_ex id d hd
  · intro d' hd'
    have h0 : rootId ≠ fs.nextId := Nat.ne_of_lt h0N
    obtain ⟨d, hd, hl⟩ := hchar rootId d' h0 hd'
    rw [hl parentEntry, if_neg (fun hh => hname2 hh.2.symm)]
    exact hInv.root_parent d hd
  · intro p dp n x hp hl
    by_cases hpN : p = fs.nextId
    · subst hpN
      rw [hnd] at hp
      injection hp with hp
      subst hp
      rw [hndl n] at hl
      by_cases hn1 : n = selfEntry
      · rw [if_pos hn1] at hl
        injection hl with hl
        injection hl with hl
        rw [← hl, hnd]
        rfl
      · rw [if_neg hn1] at hl
        by_cases hn2 : n = parentEntry
        · rw [if_pos hn2] at hl
          injection hl with hl
          injection hl with hl
          rw [← hl, hdom i hiN]
          exact hisome
        · rw [if_neg hn2] at hl
          cases hl
    · by_cases hn1 : n = selfEntry
      · obtain ⟨d, hd, hlf⟩ := hchar p dp hpN hp
        rw [hlf n, if_neg (fun hh => hname1 (hn1 ▸ hh.2.symm))] at hl
        have := hInv.ref_closed p d n x hd hl
        rw [hdom x (Nat.ne_of_lt (hlt x this))]
        exact this
      · by_cases hn2 : n = parentEntry
        · obtain ⟨d, hd, hlf⟩ := hchar p dp hpN hp
          rw [hlf n, if_neg (fun hh => hname2 (hn2 ▸ hh.2.symm))] at hl
          have := hInv.ref_closed p d n x hd hl
          rw [hdom x (Nat.ne_of_lt (hlt x this))]
          exact this
        · rcases holdpair p dp n x hpN hp hn1 hn2 hl with ⟨_, _, hx⟩ | ⟨d, hd, hl0⟩
          · subst hx
            rw [hnd]
            rfl
          · have := hInv.ref_closed p d n x hd hl0
            rw [hdom x (Nat.ne_of_lt (hlt x this))]
            exact this
  · intro p dp n x dx hp hn1 hn2 hl hx
    by_cases hpN : p = fs.nextId
    · subst hpN
      rw [hnd] at hp
      injection hp with hp
      subst hp
      rw [hndl n, if_neg hn1, if_neg hn2] at hl
      cases hl
    · rcases holdpair p dp n x hpN hp hn1 hn2 hl with ⟨hpi, hnn, hxN⟩ | ⟨d, hd, hl0⟩
      · subst hxN
        rw [hnd] at hx
        injection hx with hx
        subst hx
        rw [hndl parentEntry, if_neg (by decide), if_pos rfl, hpi]
      · have hxN : x ≠ fs.nextId :=
          Nat.ne_of_lt (hlt x (hInv.ref_closed p d n x hd hl0))
        obtain ⟨d2, hd2, hlf2⟩ := hchar x dx hxN hx
        rw [hlf2 parentEntry, if_neg (fun hh => hname2 hh.2.symm)]
        exact hInv.coherent p d n x d2 hd hn1 hn2 hl0 hd2
  · intro p1 d1 n1 p2 d2 n2 x hp1 hp2 hn11 hn12 hn21 hn22 hl1 hl2
    have hp1N : p1 ≠ fs.nextId := by
      intro hh
      subst hh
      rw [hnd] at hp1
      injection hp1 with hp1
      subst hp1
      rw [hndl n1, if_neg hn11, if_neg hn12] at hl1
      cases hl1
    have hp2N : p2 ≠ fs.nextId := by
      intro hh
      subst hh
      rw [hnd] at hp2
      injection hp2 with hp2
      subst hp2
      rw [hndl n2, if_neg hn21, if_neg hn22] at hl2
      cases hl2
    rcases holdpair p1 d1 n1 x hp1N hp1 hn11 hn12 hl1 with ⟨hpa, hna, hxa⟩ | ⟨e1, he1, hle1⟩
    · rcases holdpair p2 d2 n2 x hp2N hp2 hn21 hn22 hl2 with ⟨hpb, hnb, _⟩ | ⟨e2, he2, hle2⟩
      · exact ⟨hpa.trans hpb.symm, hna.trans hnb.symm⟩
      · rw [hxa] at hle2
        exact absurd (hlt fs.nextId (hInv.ref_closed p2 e2 n2 fs.nextId he2 hle2))
          (by omega)
    · rcases holdpair p2 d2 n2 x hp2N hp2 hn21 hn22 hl2 with ⟨hpb, hnb, hxb⟩ | ⟨e2, he2, hle2⟩
      · rw [hxb] at hle1
        exact absurd (hlt fs.nextId (hInv.ref_closed p1 e1 n1 fs.nextId he1 hle1))
          (by omega)
      · exact hInv.unique_ref p1 e1 n1 p2 e2 n2 x he1 he2 hn11 hn12 hn21 hn22 hle1 hle2
  · intro p dp n hp hn1 hn2 hl
    by_cases hpN : p = fs.nextId
    · subst hpN
      rw [hnd] at hp
      injection hp with hp
      subst hp
      rw [hndl n, if_neg hn1, if_neg hn2] at hl
      cases hl
    · rcases holdpair p dp n rootId hpN hp hn1 hn2 hl with ⟨_, _, hx⟩ | ⟨d, hd, hl0⟩
      · exact absurd hx (Nat.ne_of_lt h0N)
      · exact hInv.no_root_ref p d n hd hn1 hn2 hl0

/-! ## Invariant preservation for each mutating operation -/

theorem Inv_initFS : Inv initFS := by
  have hroot : ∀ id d, initFS.dirs id = some d → id = rootId ∧ d = rootDirectoryInode := by
    intro id d hd
    by_cases h0 : id = rootId
    · subst h0
      rw [show initFS.dirs rootId = some rootDirectoryInode from rfl] at hd
      injection hd with hd
      exact ⟨rfl, hd.symm⟩
    · rw [show initFS.dirs id = if id = rootId then some rootDirectoryInode else none from rfl,
        if_neg h0] at hd
      cases hd
  refine ⟨?_, ?_, ?_, ?_, ?_, ?_, ?_, ?_, ?_⟩
  · intro id hid
    have hid1 : (1 : Nat) ≤ id := hid
    have hidne : id ≠ rootId := by
      show id ≠ 0
      omega
    rw [show initFS.dirs id = if id = rootId then some rootDirectoryInode else none from rfl,
      if_neg hidne]
  · rfl
  · intro id d hd
    obtain ⟨h1, h2⟩ := hroot id d hd
    subst h1
    subst h2
    rfl
  · intro id d hd
    obtain ⟨h1, h2⟩ := hroot id d hd
    subst h1
    subst h2
    exact ⟨rootId, rfl⟩
  · intro d hd
    obtain ⟨_, h2⟩ := hroot rootId d hd
    subst h2
    rfl
  · intro p dp n c hp hl
    obtain ⟨h1, h2⟩ := hroot p dp hp
    subst h1
    subst h2
    rcases (show n = selfEntry ∨ n = parentEntry ∨
        lookupEntry rootDirectoryInode.contents n = none by
      by_cases hs : n = selfEntry
      · exact Or.inl hs
      · by_cases hpn : n = parentEntry
        · exact Or.inr (Or.inl hpn)
        · refine Or.inr (Or.inr ?_)
          show lookupEntry [(selfEntry, Ref.dir rootId), (parentEntry, Ref.dir rootId)] n = none
          rw [lookupEntry, if_neg (fun hh => hs hh.symm), lookupEntry,
            if_neg (fun hh => hpn hh.symm), lookupEntry]) with hs | hpn | hnone
    · subst hs
      rw [show lookupEntry rootDirectoryInode.contents selfEntry
          = some (Ref.dir rootId) from rfl] at hl
      injection hl with hl
      injection hl with hl
      rw [← hl]
      rfl
    · subst hpn
      rw [show lookupEntry rootDirectoryInode.contents parentEntry
          = some (Ref.dir rootId) from rfl] at hl
      injection hl with hl
      injection hl with hl
      rw [← hl]
      rfl
    · rw [hnone] at hl
      cases hl
  · intro p dp n c dc hp hn1 hn2 hl hc
    obtain ⟨h1, h2⟩ := hroot p dp hp
    subst h1
    subst h2
    have : lookupEntry rootDirectoryInode.contents n = none := by
      show lookupEntry [(selfEntry, Ref.dir rootId), (parentEntry, Ref.dir rootId)] n = none
      rw [lookupEntry, if_neg (fun hh => hn1 hh.symm), lookupEntry,
        if_neg (fun hh => hn2 hh.symm), lookupEntry]
    rw [this] at hl
    cases hl
  · intro p1 d1 n1 p2 d2 n2 c hp1 hp2 hn11 hn12 hn21 hn22 hl1 hl2
    obtain ⟨h1, h2⟩ := hroot p1 d1 hp1
    subst h1
    subst h2
    have : lookupEntry rootDirectoryInode.contents n1 = none := by
      show lookupEntry [(selfEntry, Ref.dir rootId), (parentEntry, Ref.dir rootId)] n1 = none
      rw [lookupEntry, if_neg (fun hh => hn11 hh.symm), lookupEntry,
        if_neg (fun hh => hn12 hh.symm), lookupEntry]
    rw [this] at hl1
    cases hl1
  · intro p dp n hp hn1 hn2 hl
    obtain ⟨h1, h2⟩ := hroot p dp hp
    subst h1
    subst h2
    have : lookupEntry rootDirectoryInode.contents n = none := by
      show lookupEntry [(selfEntry, Ref.dir rootId), (parentEntry, Ref.dir rootId)] n = none
      rw [lookupEntry, if_neg (fun hh => hn1 hh.symm), lookupEntry,
        if_neg (fun hh => hn2 hh.symm), lookupEntry]
    rw [this] at hl
    exact Option.noConfusion hl

theorem Inv_setFile (fs : FS) (fid : Nat) (data : List Nat) (h : Inv fs) :
    Inv (fs.setFile fid data) :=
  ⟨h.dom_lt, h.root_ex, h.self_loop, h.parent_ex, h.root_parent, h.ref_closed, h.coherent,
    h.unique_ref, h.no_root_ref⟩

theorem Inv_FSTruncateAndWriteAll (fs : FS) (fid : Nat) (d : Option (List Nat))
    (h : Inv fs) : Inv (FSTruncateAndWriteAll fs fid d).2 := by
  unfold FSTruncateAndWriteAll
  cases hf : fs.files fid with
  | none => exact h
  | some data =>
    dsimp only
    cases htw : FileTruncateAndWriteAll data d with
    | mk e data1 =>
      cases e with
      | some e0 => exact h
      | none => exact Inv_setFile fs fid data1 h

theorem Inv_FSWriteAt (fs : FS) (fid : Nat) (p : Option (List Nat)) (off : Int)
    (h : Inv fs) : Inv (FSWriteAt fs fid p off).2.2 := by
  unfold FSWriteAt
  cases hf : fs.files fid with
  | none => exact h
  | some data =>
    dsimp only
    cases hw : FileWriteAt data p off with
    | mk n rest =>
      cases rest with
      | mk e data1 =>
        cases e with
        | some e0 => exact h
        | none => exact Inv_setFile fs fid data1 h

theorem Inv_AddDirectory (fs : FS) (i : Nat) (name : EntryName) (h : Inv fs) :
    Inv (AddDirectory fs i name).2 := by
  unfold AddDirectory
  by_cases hsep : '/' ∈ name
  · rw [if_pos hsep]; exact h
  · rw [if_neg hsep]
    cases hd : fs.dirs i with
    | none => exact h
    | some d =>
      dsimp only
      by_cases hdel : d.deleted = true
      · rw [if_pos hdel]; exact h
      · rw [if_neg hdel]
        by_cases hlk : (lookupEntry d.contents name).isSome = true
        · rw [if_pos hlk]; exact h
        · rw [if_neg hlk]
          have hname1 : name ≠ selfEntry := by
            intro hh
            rw [hh, h.self_loop i d hd] at hlk
            exact hlk rfl
          have hname2 : name ≠ parentEntry := by
            intro hh
            obtain ⟨p, hp⟩ := h.parent_ex i d hd
            rw [hh, hp] at hlk
            exact hlk rfl
          have hiN : i ≠ fs.nextId := by
            intro hh
            rw [h.dom_lt i (le_of_eq hh.symm)] at hd
            cases hd
          rw [if_neg hiN, hd]
          dsimp only
          refine Inv_transfer_allocdir _ _ i name hname1 hname2 (by rw [hd]; rfl)
            ⟨{ deleted := false,
               contents := [(selfEntry, Ref.dir fs.nextId), (parentEntry, Ref.dir i)] },
             ?_, ?_⟩ ?_ rfl ?_ h
          · rw [FS.setDir_dirs_ne _ _ _ _ (fun hh => hiN hh.symm)]
            dsimp only
            rw [if_pos rfl]
          · intro n
            by_cases hns : n = selfEntry
            · subst hns
              rw [if_pos rfl]
              rfl
            · rw [if_neg hns]
              by_cases hnp : n = parentEntry
              · subst hnp
                rw [if_pos rfl]
                show (if selfEntry = parentEntry then some (Ref.dir fs.nextId)
                  else lookupEntry [(parentEntry, Ref.dir i)] parentEntry) = some (Ref.dir i)
                rw [if_neg (by decide)]
                rfl
              · rw [if_neg hnp]
                show lookupEntry [(selfEntry, Ref.dir fs.nextId), (parentEntry, Ref.dir i)] n
                  = none
                rw [lookupEntry, if_neg (fun hh => hns hh.symm), lookupEntry,
                  if_neg (fun hh => hnp hh.symm), lookupEntry]
          · intro j hjN
            by_cases hji : j = i
            · subst hji
              rw [FS.setDir_dirs_self, hd]
              rfl
            · rw [FS.setDir_dirs_ne _ _ _ _ hji]
              dsimp only
              rw [if_neg hjN]
          · intro j d' hjN hj
            by_cases hji : j = i
            · subst hji
              rw [FS.setDir_dirs_self] at hj
              injection hj with hj
              subst hj
              refine ⟨d, hd, fun n => ?_⟩
              rw [lookupEntry_insert]
              by_cases hn : n = name
              · rw [if_pos hn, if_pos ⟨rfl, hn⟩]
              · rw [if_neg hn, if_neg (fun hh => hn hh.2)]
            · rw [FS.setDir_dirs_ne _ _ _ _ hji] at hj
              dsimp only at hj
              rw [if_neg hjN] at hj
              refine ⟨d', hj, fun n => ?_⟩
              rw [if_neg (fun hh => hji hh.1)]

theorem Inv_CreateFileInodeEntry (fs : FS) (i : Nat) (entry : EntryName) (errOnExist : Bool)
    (h : Inv fs) : Inv (CreateFileInodeEntry fs i entry errOnExist).2 := by
  unfold CreateFileInodeEntry
  by_cases hsep : '/' ∈ entry
  · rw [if_pos hsep]; exact h
  · rw [if_neg hsep]
    cases hd : fs.dirs i with
    | none => exact h
    | some d =>
      dsimp only
      cases hlk : lookupEntry d.contents entry with
      | some inode =>
        dsimp only
        by_cases he : errOnExist = true
        · rw [if_pos he]; exact h
        · rw [if_neg he]
          cases inode with
          | file _ => exact h
          | dir _ => exact h
      | none =>
        by_cases hdel : d.deleted = true
        · rw [if_pos hdel]; exact h
        · rw [if_neg hdel]
          have hent1 : entry ≠ selfEntry := by
            intro hh
            rw [hh, h.self_loop i d hd] at hlk
            cases hlk
          have hent2 : entry ≠ parentEntry := by
            intro hh
            obtain ⟨p, hp⟩ := h.parent_ex i d hd
            rw [hh, hp] at hlk
            cases hlk
          dsimp only
          rw [hd]
          dsimp only
          refine Inv_transfer_nodir _ _
            (fun j n => if j = i ∧ n = entry then some (some (Ref.file fs.nextId)) else none)
            ?_ ?_ (Nat.le_succ _) ?_ h
          · intro j n r hr
            dsimp only at hr
            by_cases hc : j = i ∧ n = entry
            · rw [if_pos hc] at hr
              injection hr with hr
              subst hr
              exact ⟨⟨hc.2 ▸ hent1, hc.2 ▸ hent2⟩, fun x hx => by cases hx⟩
            · rw [if_neg hc] at hr
              cases hr
          · intro j
            by_cases hji : j = i
            · subst hji
              rw [FS.setDir_dirs_self, hd]
              rfl
            · rw [FS.setDir_dirs_ne _ _ _ _ hji]
          · intro j d' hj
            by_cases hji : j = i
            · subst hji
              rw [FS.setDir_dirs_self] at hj
              injection hj with hj
              subst hj
              refine ⟨d, hd, fun n => ?_⟩
              rw [lookupEntry_insert]
              dsimp only
              by_cases hn : n = entry
              · rw [if_pos hn, if_pos ⟨rfl, hn⟩]
                rfl
              · rw [if_neg hn, if_neg (fun hh => hn hh.2)]
                rfl
            · rw [FS.setDir_dirs_ne _ _ _ _ hji] at hj
              refine ⟨d', hj, fun n => ?_⟩
              dsimp only
              rw [if_neg (fun hh => hji hh.1)]
              rfl

/-- Characterization of doDeleteFile relative to a parent directory read: on
error the heap is returned unchanged; on success the named entry (which held a
file reference) disappears from the parent's table while every other lookup,
the heap domain and the allocation counter are unchanged. -/
theorem doDeleteFile_char (fs : FS) (i : Nat) (entry : EntryName)
    (d : DirectoryInode) (hd : fs.dirs i = some d) :
    (∀ e fs1, doDeleteFile fs i entry = (some e, fs1) → fs1 = fs) ∧
    (∀ fs1, doDeleteFile fs i entry = (none, fs1) →
      (∃ f, lookupEntry d.contents entry = some (Ref.file f)) ∧
      (∀ j, (fs1.dirs j).isSome = (fs.dirs j).isSome) ∧ fs1.nextId = fs.nextId ∧
      ∀ j d', fs1.dirs j = some d' → ∃ d0, fs.dirs j = some d0 ∧ ∀ n,
        lookupEntry d'.contents n =
          if j = i ∧ n = entry then none else lookupEntry d0.contents n) := by
  unfold doDeleteFile
  rw [hd]
  dsimp only
  cases hlk : lookupEntry d.contents entry with
  | none =>
    refine ⟨fun e fs1 he => ?_, fun fs1 hs => ?_⟩
    · injection he with h1 h2; exact h2.symm
    · injection hs with h1 h2; exact Option.noConfusion h1
  | some r =>
    cases r with
    | dir z =>
      refine ⟨fun e fs1 he => ?_, fun fs1 hs => ?_⟩
      · injection he with h1 h2; exact h2.symm
      · injection hs with h1 h2; exact Option.noConfusion h1
    | file f =>
      refine ⟨fun e fs1 he => ?_, fun fs1 hs => ?_⟩
      · injection he with h1 h2; exact Option.noConfusion h1
      · injection hs with h1 h2
        subst h2
        refine ⟨⟨f, rfl⟩, ?_, rfl, ?_⟩
        · intro j
          by_cases hji : j = i
          · subst hji; rw [FS.setDir_dirs_self, hd]; rfl
          · rw [FS.setDir_dirs_ne _ _ _ _ hji]
        · intro j d' hj
          by_cases hji : j = i
          · subst hji
            rw [FS.setDir_dirs_self] at hj
            injection hj with hj
            subst hj
            refine ⟨d, hd, fun n => ?_⟩
            dsimp only
            rw [lookupEntry_erase]
            by_cases hn : n = entry
            · rw [if_pos hn, if_pos ⟨rfl, hn⟩]
            · rw [if_neg hn, if_neg (fun hh => hn hh.2)]
          · rw [FS.setDir_dirs_ne _ _ _ _ hji] at hj
            refine ⟨d', hj, fun n => ?_⟩
            rw [if_neg (fun hh => hji hh.1)]

/-- Characterization of doDeleteDirectory relative to a parent directory read:
on error the heap is returned unchanged; on success the named entry (which was
not "." or "..") disappears from the parent's table while every other lookup,
the heap domain and the allocation counter are unchanged (the emptied child
only has its `deleted` flag set, which no lookup observes). -/
theorem doDeleteDirectory_char (fs : FS) (i : Nat) (entry : EntryName)
    (d : DirectoryInode) (hd : fs.dirs i = some d) :
    (∀ e fs1, doDeleteDirectory fs i entry = (some e, fs1) → fs1 = fs) ∧
    (∀ fs1, doDeleteDirectory fs i entry = (none, fs1) →
      (entry ≠ selfEntry ∧ entry ≠ parentEntry) ∧
      (∀ j, (fs1.dirs j).isSome = (fs.dirs j).isSome) ∧ fs1.nextId = fs.nextId ∧
      ∀ j d', fs1.dirs j = some d' → ∃ d0, fs.dirs j = some d0 ∧ ∀ n,
        lookupEntry d'.contents n =
          if j = i ∧ n = entry then none else lookupEntry d0.contents n) := by
  unfold doDeleteDirectory
  by_cases hspec : entry = selfEntry ∨ entry = parentEntry
  · rw [if_pos hspec]
    refine ⟨fun e fs1 he => ?_, fun fs1 hs => ?_⟩
    · injection he with h1 h2; exact h2.symm
    · injection hs with h1 h2; exact Option.noConfusion h1
  · rw [if_neg hspec]
    have hent1 : entry ≠ selfEntry := fun hh => hspec (Or.inl hh)
    have hent2 : entry ≠ parentEntry := fun hh => hspec (Or.inr hh)
    rw [hd]
    dsimp only
    cases hlk : lookupEntry d.contents entry with
    | none =>
      refine ⟨fun e fs1 he => ?_, fun fs1 hs => ?_⟩
      · injection he with h1 h2; exact h2.symm
      · injection hs with h1 h2; exact Option.noConfusion h1
    | some r =>
      cases r with
      | file g =>
        refine ⟨fun e fs1 he => ?_, fun fs1 hs => ?_⟩
        · injection he with h1 h2; exact h2.symm
        · injection hs with h1 h2; exact Option.noConfusion h1
      | dir z =>
        dsimp only
        unfold dirDelete
        cases hdz : fs.dirs z with
        | none =>
          dsimp only
          refine ⟨fun e fs1 he => ?_, fun fs1 hs => ?_⟩
          · injection he with h1 h2; exact h2.symm
          · injection hs with h1 h2; exact Option.noConfusion h1
        | some dz =>
          dsimp only
          by_cases hzdel : dz.deleted = true
          · rw [if_pos hzdel]
            dsimp only
            rw [hd]
            dsimp only
            refine ⟨fun e fs1 he => ?_, fun fs1 hs => ?_⟩
            · injection he with h1 h2; exact Option.noConfusion h1
            · injection hs with h1 h2
              subst h2
              refine ⟨⟨hent1, hent2⟩, ?_, rfl, ?_⟩
              · intro j
                by_cases hji : j = i
                · subst hji; rw [FS.setDir_dirs_self, hd]; rfl
                · rw [FS.setDir_dirs_ne _ _ _ _ hji]
              · intro j d' hj
                by_cases hji : j = i
                · subst hji
                  rw [FS.setDir_dirs_self] at hj
                  injection hj with hj
                  subst hj
                  refine ⟨d, hd, fun n => ?_⟩
                  dsimp only
                  rw [lookupEntry_erase]
                  by_cases hn : n = entry
                  · rw [if_pos hn, if_pos ⟨rfl, hn⟩]
                  · rw [if_neg hn, if_neg (fun hh => hn hh.2)]
                · rw [FS.setDir_dirs_ne _ _ _ _ hji] at hj
                  refine ⟨d', hj, fun n => ?_⟩
                  rw [if_neg (fun hh => hji hh.1)]
          · rw [if_neg hzdel]
            by_cases hne : hasNonSpecialEntry dz.contents = true
            · rw [if_pos hne]
              dsimp only
              refine ⟨fun e fs1 he => ?_, fun fs1 hs => ?_⟩
              · injection he with h1 h2; exact h2.symm
              · injection hs with h1 h2; exact Option.noConfusion h1
            · rw [if_neg hne]
              dsimp only
              by_cases hzi : z = i
              · subst hzi
                rw [FS.setDir_dirs_self]
                dsimp only
                refine ⟨fun e fs1 he => ?_, fun fs1 hs => ?_⟩
                · injection he with h1 h2; exact Option.noConfusion h1
                · injection hs with h1 h2
                  subst h2
                  refine ⟨⟨hent1, hent2⟩, ?_, rfl, ?_⟩
                  · intro j
                    by_cases hji : j = z
                    · subst hji
                      rw [FS.setDir_dirs, if_pos rfl, hdz]; rfl
                    · rw [FS.setDir_dirs, if_neg hji, FS.setDir_dirs, if_neg hji]
                  · intro j d' hj
                    by_cases hji : j = z
                    · subst hji
                      rw [FS.setDir_dirs, if_pos rfl] at hj
                      injection hj with hj
                      subst hj
                      refine ⟨dz, hdz, fun n => ?_⟩
                      dsimp only
                      rw [lookupEntry_erase]
                      by_cases hn : n = entry
                      · rw [if_pos hn, if_pos ⟨rfl, hn⟩]
                      · rw [if_neg hn, if_neg (fun hh => hn hh.2)]
                    · rw [FS.setDir_dirs, if_neg hji, FS.setDir_dirs, if_neg hji] at hj
                      refine ⟨d', hj, fun n => ?_⟩
                      rw [if_neg (fun hh => hji hh.1)]
              · rw [FS.setDir_dirs_ne _ _ _ _ (fun hh => hzi hh.symm), hd]
                dsimp only
                refine ⟨fun e fs1 he => ?_, fun fs1 hs => ?_⟩
                · injection he with h1 h2; exact Option.noConfusion h1
                · injection hs with h1 h2
                  subst h2
                  refine ⟨⟨hent1, hent2⟩, ?_, rfl, ?_⟩
                  · intro j
                    by_cases hji : j = i
                    · subst hji
                      rw [FS.setDir_dirs, if_pos rfl, hd]; rfl
                    · rw [FS.setDir_dirs, if_neg hji, FS.setDir_dirs]
                      by_cases hjz : j = z
                      · subst hjz; rw [if_pos rfl, hdz]; rfl
                      · rw [if_neg hjz]
                  · intro j d' hj
                    by_cases hji : j = i
                    · subst hji
                      rw [FS.setDir_dirs, if_pos rfl] at hj
                      injection hj with hj
                      subst hj
                      refine ⟨d, hd, fun n => ?_⟩
                      dsimp only
                      rw [lookupEntry_erase]
                      by_cases hn : n = entry
                      · rw [if_pos hn, if_pos ⟨rfl, hn⟩]
                      · rw [if_neg hn, if_neg (fun hh => hn hh.2)]
                    · rw [FS.setDir_dirs, if_neg hji, FS.setDir_dirs] at hj
                      by_cases hjz : j = z
                      · subst hjz
                        rw [if_pos rfl] at hj
                        injection hj with hj
                        subst hj
                        refine ⟨dz, hdz, fun n => ?_⟩
                        rw [if_neg (fun hh => hji hh.1)]
                      · rw [if_neg hjz] at hj
                        refine ⟨d', hj, fun n => ?_⟩
                        rw [if_neg (fun hh => hji hh.1)]

/-- DeleteFile preserves the structural invariant: the only lookup change is
that one non-special entry holding a file reference disappears.  (The deleted
name cannot be "." or ".." because under the invariant those hold directory
references while the delete-file path requires a file reference.) -/
theorem Inv_DeleteFile (fs : FS) (i : Nat) (entry : EntryName) (h : Inv fs) :
    Inv (DeleteFile fs i entry).2 := by
  unfold DeleteFile
  cases hdi : fs.dirs i with
  | none =>
    unfold doDeleteFile
    rw [hdi]
    exact h
  | some d =>
    obtain ⟨dele, dels⟩ := doDeleteFile_char fs i entry d hdi
    cases hres : doDeleteFile fs i entry with
    | mk e1 fs1 =>
      cases e1 with
      | some e => rw [dele e fs1 hres]; exact h
      | none =>
        obtain ⟨⟨f, hlkf⟩, hdom1, hnext1, hchar1⟩ := dels fs1 hres
        have hent1 : entry ≠ selfEntry := by
          intro hh
          rw [hh, h.self_loop i d hdi] at hlkf
          injection hlkf with hx
          cases hx
        have hent2 : entry ≠ parentEntry := by
          intro hh
          obtain ⟨p, hp⟩ := h.parent_ex i d hdi
          rw [hh, hp] at hlkf
          injection hlkf with hx
          cases hx
        refine Inv_transfer_nodir fs fs1
          (fun j n => if j = i ∧ n = entry then some none else none)
          ?_ hdom1 (le_of_eq hnext1.symm) ?_ h
        · intro j n r hr
          dsimp only at hr
          by_cases hc : j = i ∧ n = entry
          · rw [if_pos hc] at hr
            injection hr with hr
            subst hr
            exact ⟨⟨hc.2 ▸ hent1, hc.2 ▸ hent2⟩, fun x hx => by cases hx⟩
          · rw [if_neg hc] at hr
            cases hr
        · intro j d' hj
          obtain ⟨d0, hd0, hl0⟩ := hchar1 j d' hj
          refine ⟨d0, hd0, fun n => ?_⟩
          rw [hl0 n]
          dsimp only
          by_cases hc : j = i ∧ n = entry
          · rw [if_pos hc, if_pos hc]
            rfl
          · rw [if_neg hc, if_neg hc]
            rfl

/-- DeleteDirectory preserves the structural invariant: the only lookup change
is that one non-special entry (the guard refuses "." and "..") disappears. -/
theorem Inv_DeleteDirectory (fs : FS) (i : Nat) (entry : EntryName) (h : Inv fs) :
    Inv (DeleteDirectory fs i entry).2 := by
  unfold DeleteDirectory
  cases hdi : fs.dirs i with
  | none =>
    unfold doDeleteDirectory
    by_cases hspec : entry = selfEntry ∨ entry = parentEntry
    · rw [if_pos hspec]; exact h
    · rw [if_neg hspec, hdi]; exact h
  | some d =>
    obtain ⟨dele, dels⟩ := doDeleteDirectory_char fs i entry d hdi
    cases hres : doDeleteDirectory fs i entry with
    | mk e1 fs1 =>
      cases e1 with
      | some e => rw [dele e fs1 hres]; exact h
      | none =>
        obtain ⟨⟨hent1, hent2⟩, hdom1, hnext1, hchar1⟩ := dels fs1 hres
        refine Inv_transfer_nodir fs fs1
          (fun j n => if j = i ∧ n = entry then some none else none)
          ?_ hdom1 (le_of_eq hnext1.symm) ?_ h
        · intro j n r hr
          dsimp only at hr
          by_cases hc : j = i ∧ n = entry
          · rw [if_pos hc] at hr
            injection hr with hr
            subst hr
            exact ⟨⟨hc.2 ▸ hent1, hc.2 ▸ hent2⟩, fun x hx => by cases hx⟩
          · rw [if_neg hc] at hr
            cases hr
        · intro j d' hj
          obtain ⟨d0, hd0, hl0⟩ := hchar1 j d' hj
          refine ⟨d0, hd0, fun n => ?_⟩
          rw [hl0 n]
          dsimp only
          by_cases hc : j = i ∧ n = entry
          · rw [if_pos hc, if_pos hc]
            rfl
          · rw [if_neg hc, if_neg hc]
            rfl

/-- Characterization of doInsertFileInode relative to a parent directory read:
on error the heap is returned unchanged; on success the parent's table maps
the entry to the new file reference and every other lookup, the heap domain
and the allocation counter are unchanged (a displaced file entry is simply
overwritten; a displaced empty directory only has its flag set). -/
theorem doInsertFileInode_char (fs : FS) (i : Nat) (entry : EntryName) (f : Nat)
    (d : DirectoryInode) (hd : fs.dirs i = some d) :
    (∀ e fs1, doInsertFileInode fs i entry f = (some e, fs1) → fs1 = fs) ∧
    (∀ fs1, doInsertFileInode fs i entry f = (none, fs1) →
      (∀ j, (fs1.dirs j).isSome = (fs.dirs j).isSome) ∧ fs1.nextId = fs.nextId ∧
      ∀ j d', fs1.dirs j = some d' → ∃ d0, fs.dirs j = some d0 ∧ ∀ n,
        lookupEntry d'.contents n =
          if j = i ∧ n = entry then some (Ref.file f) else lookupEntry d0.contents n) := by
  unfold doInsertFileInode
  rw [hd]
  dsimp only
  cases hlkc : lookupEntry d.contents entry with
  | none =>
    dsimp only
    rw [hd]
    dsimp only
    refine ⟨fun e fs1 he => ?_, fun fs1 hs => ?_⟩
    · injection he with h1 h2; exact Option.noConfusion h1
    · injection hs with h1 h2
      subst h2
      refine ⟨?_, rfl, ?_⟩
      · intro j
        by_cases hji : j = i
        · subst hji; rw [FS.setDir_dirs_self, hd]; rfl
        · rw [FS.setDir_dirs_ne _ _ _ _ hji]
      · intro j d' hj
        by_cases hji : j = i
        · subst hji
          rw [FS.setDir_dirs_self] at hj
          injection hj with hj
          subst hj
          refine ⟨d, hd, fun n => ?_⟩
          dsimp only
          rw [lookupEntry_insert]
          by_cases hn : n = entry
          · rw [if_pos hn, if_pos ⟨rfl, hn⟩]
          · rw [if_neg hn, if_neg (fun hh => hn hh.2)]
        · rw [FS.setDir_dirs_ne _ _ _ _ hji] at hj
          refine ⟨d', hj, fun n => ?_⟩
          rw [if_neg (fun hh => hji hh.1)]
  | some r =>
    cases r with
    | file g =>
      dsimp only
      obtain ⟨dele, dels⟩ := doDeleteFile_char fs i entry d hd
      cases hdel : doDeleteFile fs i entry with
      | mk e1 fsA =>
        cases e1 with
        | some e =>
          dsimp only
          refine ⟨fun e2 fs1 he => ?_, fun fs1 hs => ?_⟩
          · injection he with h1 h2
            rw [← h2]
            exact dele e fsA hdel
          · injection hs with h1 h2; exact Option.noConfusion h1
        | none =>
          dsimp only
          obtain ⟨hfile, hdomA, hnextA, hcharA⟩ := dels fsA hdel
          have hAi : (fsA.dirs i).isSome = true := by rw [hdomA i, hd]; rfl
          cases hdA : fsA.dirs i with
          | none => rw [hdA] at hAi; exact absurd hAi (by decide)
          | some dA =>
            dsimp only
            refine ⟨fun e2 fs1 he => ?_, fun fs1 hs => ?_⟩
            · injection he with h1 h2; exact Option.noConfusion h1
            · injection hs with h1 h2
              subst h2
              refine ⟨?_, hnextA, ?_⟩
              · intro j
                by_cases hji : j = i
                · subst hji; rw [FS.setDir_dirs_self, hd]; rfl
                · rw [FS.setDir_dirs_ne _ _ _ _ hji, hdomA j]
              · intro j d' hj
                by_cases hji : j = i
                · subst hji
                  rw [FS.setDir_dirs_self] at hj
                  injection hj with hj
                  subst hj
                  obtain ⟨d0, hd0, hl0⟩ := hcharA _ dA hdA
                  refine ⟨d0, hd0, fun n => ?_⟩
                  dsimp only
                  rw [lookupEntry_insert]
                  by_cases hn : n = entry
                  · rw [if_pos hn, if_pos ⟨rfl, hn⟩]
                  · rw [if_neg hn, if_neg (fun hh => hn hh.2), hl0 n,
                      if_neg (fun hh => hn hh.2)]
                · rw [FS.setDir_dirs_ne _ _ _ _ hji] at hj
                  obtain ⟨d0, hd0, hl0⟩ := hcharA j d' hj
                  refine ⟨d0, hd0, fun n => ?_⟩
                  rw [if_neg (fun hh => hji hh.1), hl0 n, if_neg (fun hh => hji hh.1)]
    | dir z =>
      dsimp only
      obtain ⟨dele, dels⟩ := doDeleteDirectory_char fs i entry d hd
      cases hdel : doDeleteDirectory fs i entry with
      | mk e1 fsA =>
        cases e1 with
        | some e =>
          dsimp only
          refine ⟨fun e2 fs1 he => ?_, fun fs1 hs => ?_⟩
          · injection he with h1 h2
            rw [← h2]
            exact dele e fsA hdel
          · injection hs with h1 h2; exact Option.noConfusion h1
        | none =>
          dsimp only
          obtain ⟨hspec, hdomA, hnextA, hcharA⟩ := dels fsA hdel
          have hAi : (fsA.dirs i).isSome = true := by rw [hdomA i, hd]; rfl
          cases hdA : fsA.dirs i with
          | none => rw [hdA] at hAi; exact absurd hAi (by decide)
          | some dA =>
            dsimp only
            refine ⟨fun e2 fs1 he => ?_, fun fs1 hs => ?_⟩
            · injection he with h1 h2; exact Option.noConfusion h1
            · injection hs with h1 h2
              subst h2
              refine ⟨?_, hnextA, ?_⟩
              · intro j
                by_cases hji : j = i
                · subst hji; rw [FS.setDir_dirs_self, hd]; rfl
                · rw [FS.setDir_dirs_ne _ _ _ _ hji, hdomA j]
              · intro j d' hj
                by_cases hji : j = i
                · subst hji
                  rw [FS.setDir_dirs_self] at hj
                  injection hj with hj
                  subst hj
                  obtain ⟨d0, hd0, hl0⟩ := hcharA _ dA hdA
                  refine ⟨d0, hd0, fun n => ?_⟩
                  dsimp only
                  rw [lookupEntry_insert]
                  by_cases hn : n = entry
                  · rw [if_pos hn, if_pos ⟨rfl, hn⟩]
                  · rw [if_neg hn, if_neg (fun hh => hn hh.2), hl0 n,
                      if_neg (fun hh => hn hh.2)]
                · rw [FS.setDir_dirs_ne _ _ _ _ hji] at hj
                  obtain ⟨d0, hd0, hl0⟩ := hcharA j d' hj
                  refine ⟨d0, hd0, fun n => ?_⟩
                  rw [if_neg (fun hh => hji hh.1), hl0 n, if_neg (fun hh => hji hh.1)]

/-- The insert-then-SetParent tail of doInsertDirectoryInode: inserting
`entry ↦ dir c` into parent `i` of an erase-characterized intermediate heap
and then repointing `c`'s ".." at `i` yields the two-point lookup formula. -/
theorem insertDir_setParent_char (fs fsA : FS) (i : Nat) (entry : EntryName) (c : Nat)
    (hdomA : ∀ j, (fsA.dirs j).isSome = (fs.dirs j).isSome)
    (hcharA : ∀ j d', fsA.dirs j = some d' → ∃ d0, fs.dirs j = some d0 ∧ ∀ n,
      lookupEntry d'.contents n =
        if j = i ∧ n = entry then none else lookupEntry d0.contents n)
    (dA : DirectoryInode) (hdA : fsA.dirs i = some dA)
    (hc : (fs.dirs c).isSome = true) :
    (∀ j, ((SetParent (fsA.setDir i
        { dA with contents := insertEntry dA.contents entry (Ref.dir c) }) c i).dirs j).isSome
        = (fs.dirs j).isSome) ∧
    (SetParent (fsA.setDir i
        { dA with contents := insertEntry dA.contents entry (Ref.dir c) }) c i).nextId
      = fsA.nextId ∧
    (∀ j d', (SetParent (fsA.setDir i
        { dA with contents := insertEntry dA.contents entry (Ref.dir c) }) c i).dirs j = some d' →
      ∃ d0, fs.dirs j = some d0 ∧ ∀ n,
        lookupEntry d'.contents n =
          if j = c ∧ n = parentEntry then some (Ref.dir i)
          else if j = i ∧ n = entry then some (Ref.dir c)
          else lookupEntry d0.contents n) := by
  have h2c : ((fsA.setDir i
      { dA with contents := insertEntry dA.contents entry (Ref.dir c) }).dirs c).isSome = true := by
    by_cases hci : c = i
    · rw [FS.setDir_dirs, if_pos hci]; rfl
    · rw [FS.setDir_dirs, if_neg hci, hdomA c, hc]
  unfold SetParent
  cases hdc2 : (fsA.setDir i
      { dA with contents := insertEntry dA.contents entry (Ref.dir c) }).dirs c with
  | none => rw [hdc2] at h2c; exact absurd h2c (by decide)
  | some dc2 =>
    dsimp only
    refine ⟨?_, rfl, ?_⟩
    · intro j
      by_cases hjc : j = c
      · rw [FS.setDir_dirs, if_pos hjc, hjc, hc]
        rfl
      · rw [FS.setDir_dirs, if_neg hjc]
        by_cases hji : j = i
        · rw [FS.setDir_dirs, if_pos hji, hji, ← hdomA i, hdA]
          rfl
        · rw [FS.setDir_dirs, if_neg hji, hdomA j]
    · intro j d' hj
      by_cases hjc : j = c
      · rw [FS.setDir_dirs, if_pos hjc] at hj
        injection hj with hj
        subst hj
        by_cases hci : c = i
        · rw [FS.setDir_dirs, if_pos hci] at hdc2
          injection hdc2 with hdc2
          subst hdc2
          obtain ⟨d0, hd0, hl0⟩ := hcharA _ dA hdA
          refine ⟨d0, by rw [hjc, hci]; exact hd0, fun n => ?_⟩
          dsimp only
          rw [lookupEntry_insert]
          by_cases hnp : n = parentEntry
          · rw [if_pos hnp, if_pos ⟨hjc, hnp⟩]
          · rw [if_neg hnp, if_neg (fun hh => hnp hh.2), lookupEntry_insert]
            by_cases hn : n = entry
            · rw [if_pos hn, if_pos ⟨hjc.trans hci, hn⟩]
            · rw [if_neg hn, if_neg (fun hh => hn hh.2), hl0 n,
                if_neg (fun hh => hn hh.2)]
        · rw [FS.setDir_dirs, if_neg hci] at hdc2
          obtain ⟨d0, hd0, hl0⟩ := hcharA c dc2 hdc2
          refine ⟨d0, by rw [hjc]; exact hd0, fun n => ?_⟩
          dsimp only
          rw [lookupEntry_insert]
          by_cases hnp : n = parentEntry
          · rw [if_pos hnp, if_pos ⟨hjc, hnp⟩]
          · rw [if_neg hnp, if_neg (fun hh => hnp hh.2), hl0 n,
              if_neg (fun hh => hci hh.1),
              if_neg (fun hh => hci (hjc.symm.trans hh.1))]
      · rw [FS.setDir_dirs, if_neg hjc] at hj
        by_cases hji : j = i
        · rw [FS.setDir_dirs, if_pos hji] at hj
          injection hj with hj
          subst hj
          obtain ⟨d0, hd0, hl0⟩ := hcharA _ dA hdA
          refine ⟨d0, by rw [hji]; exact hd0, fun n => ?_⟩
          dsimp only
          rw [lookupEntry_insert]
          by_cases hn : n = entry
          · rw [if_pos hn, if_neg (fun hh => hjc hh.1), if_pos ⟨hji, hn⟩]
          · rw [if_neg hn, if_neg (fun hh => hjc hh.1), if_neg (fun hh => hn hh.2),
              hl0 n, if_neg (fun hh => hn hh.2)]
        · rw [FS.setDir_dirs, if_neg hji] at hj
          obtain ⟨d0, hd0, hl0⟩ := hcharA j d' hj
          refine ⟨d0, hd0, fun n => ?_⟩
          rw [hl0 n, if_neg (fun hh => hji hh.1), if_neg (fun hh => hjc hh.1),
            if_neg (fun hh => hji hh.1)]

/-- Characterization of doInsertDirectoryInode relative to a parent directory
read: on error the heap is returned unchanged; on success the parent's table
maps the entry to the moved directory `c`, `c`'s ".." is repointed at the
parent, and every other lookup, the heap domain and the allocation counter are
unchanged. -/
theorem doInsertDirectoryInode_char (fs : FS) (i : Nat) (entry : EntryName) (c : Nat)
    (d : DirectoryInode) (hd : fs.dirs i = some d)
    (hc : (fs.dirs c).isSome = true) :
    (∀ e fs1, doInsertDirectoryInode fs i entry c = (some e, fs1) → fs1 = fs) ∧
    (∀ fs1, doInsertDirectoryInode fs i entry c = (none, fs1) →
      (∀ j, (fs1.dirs j).isSome = (fs.dirs j).isSome) ∧ fs1.nextId = fs.nextId ∧
      ∀ j d', fs1.dirs j = some d' → ∃ d0, fs.dirs j = some d0 ∧ ∀ n,
        lookupEntry d'.contents n =
          if j = c ∧ n = parentEntry then some (Ref.dir i)
          else if j = i ∧ n = entry then some (Ref.dir c)
          else lookupEntry d0.contents n) := by
  unfold doInsertDirectoryInode
  rw [hd]
  dsimp only
  cases hlkc : lookupEntry d.contents entry with
  | none =>
    dsimp only
    rw [hd]
    dsimp only
    have hcharId : ∀ j d', fs.dirs j = some d' → ∃ d0, fs.dirs j = some d0 ∧ ∀ n,
        lookupEntry d'.contents n =
          if j = i ∧ n = entry then none else lookupEntry d0.contents n := by
      intro j d' hj
      refine ⟨d', hj, fun n => ?_⟩
      by_cases hcnd : j = i ∧ n = entry
      · rw [if_pos hcnd]
        rw [hcnd.1] at hj
        rw [hd] at hj
        injection hj with hj
        rw [hcnd.2, ← hj]
        exact hlkc
      · rw [if_neg hcnd]
    refine ⟨fun e fs1 he => ?_, fun fs1 hs => ?_⟩
    · injection he with h1 h2; exact Option.noConfusion h1
    · injection hs with h1 h2
      subst h2
      exact insertDir_setParent_char fs fs i entry c (fun j => rfl) hcharId d hd hc
  | some r =>
    cases r with
    | file g =>
      dsimp only
      obtain ⟨dele, dels⟩ := doDeleteFile_char fs i entry d hd
      cases hdel : doDeleteFile fs i entry with
      | mk e1 fsA =>
        cases e1 with
        | some e =>
          dsimp only
          refine ⟨fun e2 fs1 he => ?_, fun fs1 hs => ?_⟩
          · injection he with h1 h2
            rw [← h2]
            exact dele e fsA hdel
          · injection hs with h1 h2; exact Option.noConfusion h1
        | none =>
          dsimp only
          obtain ⟨hfile, hdomA, hnextA, hcharA⟩ := dels fsA hdel
          have hAi : (fsA.dirs i).isSome = true := by rw [hdomA i, hd]; rfl
          cases hdA : fsA.dirs i with
          | none => rw [hdA] at hAi; exact absurd hAi (by decide)
          | some dA =>
            dsimp only
            refine ⟨fun e2 fs1 he => ?_, fun fs1 hs => ?_⟩
            · injection he with h1 h2; exact Option.noConfusion h1
            · injection hs with h1 h2
              subst h2
              obtain ⟨hdomS, hnextS, hcharS⟩ :=
                insertDir_setParent_char fs fsA i entry c hdomA hcharA dA hdA hc
              exact ⟨hdomS, hnextS.trans hnextA, hcharS⟩
    | dir z =>
      dsimp only
      obtain ⟨dele, dels⟩ := doDeleteDirectory_char fs i entry d hd
      cases hdel : doDeleteDirectory fs i entry with
      | mk e1 fsA =>
        cases e1 with
        | some e =>
          dsimp only
          refine ⟨fun e2 fs1 he => ?_, fun fs1 hs => ?_⟩
          · injection he with h1 h2
            rw [← h2]
            exact dele e fsA hdel
          · injection hs with h1 h2; exact Option.noConfusion h1
        | none =>
          dsimp only
          obtain ⟨hspec, hdomA, hnextA, hcharA⟩ := dels fsA hdel
          have hAi : (fsA.dirs i).isSome = true := by rw [hdomA i, hd]; rfl
          cases hdA : fsA.dirs i with
          | none => rw [hdA] at hAi; exact absurd hAi (by decide)
          | some dA =>
            dsimp only
            refine ⟨fun e2 fs1 he => ?_, fun fs1 hs => ?_⟩
            · injection he with h1 h2; exact Option.noConfusion h1
            · injection hs with h1 h2
              subst h2
              obtain ⟨hdomS, hnextS, hcharS⟩ :=
                insertDir_setParent_char fs fsA i entry c hdomA hcharA dA hdA hc
              exact ⟨hdomS, hnextS.trans hnextA, hcharS⟩

/-- Completing a file move: after the destination insert (characterized by a
one-point file-reference formula) the source entry is erased; the result
satisfies the invariant because no directory reference is created. -/
theorem Inv_move_file (fs fs1 : FS) (sp dp : Nat) (srcE dstE : EntryName) (f : Nat)
    (hs1 : srcE ≠ selfEntry) (hs2 : srcE ≠ parentEntry)
    (hd1 : dstE ≠ selfEntry) (hd2 : dstE ≠ parentEntry)
    (hdiff : ¬(sp = dp ∧ srcE = dstE))
    (sd : DirectoryInode) (hsd : fs.dirs sp = some sd)
    (hdom1 : ∀ j, (fs1.dirs j).isSome = (fs.dirs j).isSome)
    (hnext1 : fs1.nextId = fs.nextId)
    (hchar1 : ∀ j d', fs1.dirs j = some d' → ∃ d0, fs.dirs j = some d0 ∧ ∀ n,
      lookupEntry d'.contents n =
        if j = dp ∧ n = dstE then some (Ref.file f) else lookupEntry d0.contents n)
    (sd1 : DirectoryInode) (hsd1 : fs1.dirs sp = some sd1)
    (h : Inv fs) :
    Inv (fs1.setDir sp { sd1 with contents := eraseEntry sd1.contents srcE }) := by
  refine Inv_transfer_nodir fs _
    (fun j n => if j = dp ∧ n = dstE then some (some (Ref.file f))
      else if j = sp ∧ n = srcE then some none else none)
    ?_ ?_ (le_of_eq hnext1.symm) ?_ h
  · intro j n r hr
    dsimp only at hr
    by_cases hc1 : j = dp ∧ n = dstE
    · rw [if_pos hc1] at hr
      injection hr with hr
      subst hr
      exact ⟨⟨hc1.2 ▸ hd1, hc1.2 ▸ hd2⟩, fun x hx => by cases hx⟩
    · rw [if_neg hc1] at hr
      by_cases hc2 : j = sp ∧ n = srcE
      · rw [if_pos hc2] at hr
        injection hr with hr
        subst hr
        exact ⟨⟨hc2.2 ▸ hs1, hc2.2 ▸ hs2⟩, fun x hx => by cases hx⟩
      · rw [if_neg hc2] at hr
        cases hr
  · intro j
    by_cases hjsp : j = sp
    · rw [FS.setDir_dirs, if_pos hjsp, hjsp, hsd]
      rfl
    · rw [FS.setDir_dirs, if_neg hjsp, hdom1 j]
  · intro j d' hj
    by_cases hjsp : j = sp
    · rw [FS.setDir_dirs, if_pos hjsp] at hj
      injection hj with hj
      subst hj
      obtain ⟨d0, hd0, hl0⟩ := hchar1 sp sd1 hsd1
      refine ⟨d0, by rw [hjsp]; exact hd0, fun n => ?_⟩
      dsimp only
      rw [lookupEntry_erase]
      by_cases hn : n = srcE
      · rw [if_pos hn,
          if_neg (fun hh => hdiff ⟨hjsp.symm.trans hh.1, hn.symm.trans hh.2⟩),
          if_pos ⟨hjsp, hn⟩]
        rfl
      · rw [if_neg hn, hl0 n]
        by_cases hC : sp = dp ∧ n = dstE
        · rw [if_pos hC, if_pos ⟨hjsp.trans hC.1, hC.2⟩]
          rfl
        · rw [if_neg hC, if_neg (fun hh => hC ⟨hjsp.symm.trans hh.1, hh.2⟩),
            if_neg (fun hh => hn hh.2)]
          rfl
    · rw [FS.setDir_dirs, if_neg hjsp] at hj
      obtain ⟨d0, hd0, hl0⟩ := hchar1 j d' hj
      refine ⟨d0, hd0, fun n => ?_⟩
      rw [hl0 n]
      dsimp only
      by_cases hC : j = dp ∧ n = dstE
      · rw [if_pos hC, if_pos hC]
        rfl
      · rw [if_neg hC, if_neg hC, if_neg (fun hh => hjsp hh.1)]
        rfl

/-- Completing a directory move: after the destination insert (characterized
by the two-point formula "`c`'s '..' ↦ destination parent, destination entry ↦
`c`") the source entry is erased; the combined lookup change is exactly the
relocation formula, so the invariant transfers. -/
theorem Inv_move_dir (fs fs1 : FS) (sp dp c : Nat) (srcE dstE : EntryName)
    (hs1 : srcE ≠ selfEntry) (hs2 : srcE ≠ parentEntry)
    (hd1 : dstE ≠ selfEntry) (hd2 : dstE ≠ parentEntry)
    (hdiff : ¬(sp = dp ∧ srcE = dstE))
    (sd : DirectoryInode) (hsd : fs.dirs sp = some sd)
    (hlk : lookupEntry sd.contents srcE = some (Ref.dir c))
    (hdp : (fs.dirs dp).isSome)
    (hdom1 : ∀ j, (fs1.dirs j).isSome = (fs.dirs j).isSome)
    (hnext1 : fs1.nextId = fs.nextId)
    (hchar1 : ∀ j d', fs1.dirs j = some d' → ∃ d0, fs.dirs j = some d0 ∧ ∀ n,
      lookupEntry d'.contents n =
        if j = c ∧ n = parentEntry then some (Ref.dir dp)
        else if j = dp ∧ n = dstE then some (Ref.dir c)
        else lookupEntry d0.contents n)
    (sd1 : DirectoryInode) (hsd1 : fs1.dirs sp = some sd1)
    (h : Inv fs) :
    Inv (fs1.setDir sp { sd1 with contents := eraseEntry sd1.contents srcE }) := by
  refine Inv_transfer_movedir fs _ sp dp c srcE dstE hs1 hs2 hd1 hd2 hdp
    ⟨sd, hsd, hlk⟩ ?_ (le_of_eq hnext1.symm) ?_ h
  · intro j
    by_cases hjsp : j = sp
    · rw [FS.setDir_dirs, if_pos hjsp, hjsp, hsd]
      rfl
    · rw [FS.setDir_dirs, if_neg hjsp, hdom1 j]
  · intro j d' hj
    by_cases hjsp : j = sp
    · rw [FS.setDir_dirs, if_pos hjsp] at hj
      injection hj with hj
      subst hj
      obtain ⟨d0, hd0, hl0⟩ := hchar1 sp sd1 hsd1
      refine ⟨d0, by rw [hjsp]; exact hd0, fun n => ?_⟩
      dsimp only
      rw [lookupEntry_erase]
      by_cases hn : n = srcE
      · rw [if_pos hn, if_pos (show j = sp ∧ n = srcE from ⟨hjsp, hn⟩)]
      · rw [if_neg hn,
          if_neg (show ¬(j = sp ∧ n = srcE) from fun hh => hn hh.2), hl0 n]
        by_cases hCp : sp = c ∧ n = parentEntry
        · rw [if_pos hCp,
            if_pos (show j = c ∧ n = parentEntry from ⟨hjsp.trans hCp.1, hCp.2⟩)]
        · rw [if_neg hCp,
            if_neg (show ¬(j = c ∧ n = parentEntry) from
              fun hh => hCp ⟨hjsp.symm.trans hh.1, hh.2⟩)]
          by_cases hCd : sp = dp ∧ n = dstE
          · rw [if_pos hCd,
              if_pos (show j = dp ∧ n = dstE from ⟨hjsp.trans hCd.1, hCd.2⟩)]
          · rw [if_neg hCd,
              if_neg (show ¬(j = dp ∧ n = dstE) from
                fun hh => hCd ⟨hjsp.symm.trans hh.1, hh.2⟩)]
    · rw [FS.setDir_dirs, if_neg hjsp] at hj
      obtain ⟨d0, hd0, hl0⟩ := hchar1 j d' hj
      refine ⟨d0, hd0, fun n => ?_⟩
      rw [hl0 n,
        if_neg (show ¬(j = sp ∧ n = srcE) from fun hh => hjsp hh.1)]

/-- MoveEntry preserves the structural invariant, on every path: pre-check
errors leave the heap unchanged; same-parent renames and cross-parent moves of
files change only one non-special file entry (plus the erased source); moves
of directories realize exactly the relocation formula, which the transfer
lemma shows preserves the invariant. -/
theorem Inv_MoveEntry (fs : FS) (sp dp : Nat) (src dst : PathInfo) (h : Inv fs) :
    Inv (MoveEntry fs sp dp src dst).2 := by
  unfold MoveEntry
  by_cases h1 : src.Entry = selfEntry ∨ src.Entry = parentEntry
  · rw [if_pos h1]; exact h
  rw [if_neg h1]
  have hs1 : src.Entry ≠ selfEntry := fun hh => h1 (Or.inl hh)
  have hs2 : src.Entry ≠ parentEntry := fun hh => h1 (Or.inr hh)
  by_cases h2 : dst.Entry = selfEntry ∨ dst.Entry = parentEntry
  · rw [if_pos h2]; exact h
  rw [if_neg h2]
  have hd1 : dst.Entry ≠ selfEntry := fun hh => h2 (Or.inl hh)
  have hd2 : dst.Entry ≠ parentEntry := fun hh => h2 (Or.inr hh)
  by_cases h3 : '/' ∈ dst.Entry
  · rw [if_pos h3]; exact h
  rw [if_neg h3]
  by_cases h4 : sp = dp
  · rw [if_pos h4]
    unfold renameEntry
    by_cases h5 : src.Entry = dst.Entry
    · rw [if_pos h5]; exact h
    rw [if_neg h5]
    cases hsd : fs.dirs sp with
    | none => exact h
    | some sd =>
      dsimp only
      by_cases hdel : sd.deleted = true
      · rw [if_pos hdel]; exact h
      rw [if_neg hdel]
      cases hlk : lookupEntry sd.contents src.Entry with
      | none => exact h
      | some inode =>
        dsimp only
        by_cases hm1 : (inode.isFile && src.MustBeDir) = true
        · rw [if_pos hm1]; exact h
        rw [if_neg hm1]
        by_cases hm2 : (inode.isFile && dst.MustBeDir) = true
        · rw [if_pos hm2]; exact h
        rw [if_neg hm2]
        cases inode with
        | file f =>
          dsimp only
          obtain ⟨dele, dels⟩ := doInsertFileInode_char fs sp dst.Entry f sd hsd
          cases hins : doInsertFileInode fs sp dst.Entry f with
          | mk e1 fs1 =>
            cases e1 with
            | some e =>
              dsimp only
              rw [dele e fs1 hins]
              exact h
            | none =>
              dsimp only
              obtain ⟨hdom1, hnext1, hchar1⟩ := dels fs1 hins
              have hAi : (fs1.dirs sp).isSome = true := by rw [hdom1 sp, hsd]; rfl
              cases hsd1 : fs1.dirs sp with
              | none => rw [hsd1] at hAi; exact absurd hAi (by decide)
              | some sd1 =>
                dsimp only
                exact Inv_move_file fs fs1 sp sp src.Entry dst.Entry f hs1 hs2 hd1 hd2
                  (fun hh => h5 hh.2) sd hsd hdom1 hnext1 hchar1 sd1 hsd1 h
        | dir c =>
          dsimp only
          have hcsome : (fs.dirs c).isSome = true := h.ref_closed sp sd src.Entry c hsd hlk
          obtain ⟨dele, dels⟩ := doInsertDirectoryInode_char fs sp dst.Entry c sd hsd hcsome
          cases hins : doInsertDirectoryInode fs sp dst.Entry c with
          | mk e1 fs1 =>
            cases e1 with
            | some e =>
              dsimp only
              rw [dele e fs1 hins]
              exact h
            | none =>
              dsimp only
              obtain ⟨hdom1, hnext1, hchar1⟩ := dels fs1 hins
              have hAi : (fs1.dirs sp).isSome = true := by rw [hdom1 sp, hsd]; rfl
              cases hsd1 : fs1.dirs sp with
              | none => rw [hsd1] at hAi; exact absurd hAi (by decide)
              | some sd1 =>
                dsimp only
                exact Inv_move_dir fs fs1 sp sp c src.Entry dst.Entry hs1 hs2 hd1 hd2
                  (fun hh => h5 hh.2) sd hsd hlk (by rw [hsd]; rfl)
                  hdom1 hnext1 hchar1 sd1 hsd1 h
  · rw [if_neg h4]
    cases hdd : fs.dirs dp with
    | none => exact h
    | some dd =>
      dsimp only
      by_cases hddel : dd.deleted = true
      · rw [if_pos hddel]; exact h
      rw [if_neg hddel]
      cases hsd : fs.dirs sp with
      | none => exact h
      | some sd =>
        dsimp only
        cases hlk : lookupEntry sd.contents src.Entry with
        | none => exact h
        | some inode =>
          dsimp only
          by_cases hm1 : (inode.isFile && src.MustBeDir) = true
          · rw [if_pos hm1]; exact h
          rw [if_neg hm1]
          by_cases hm2 : (inode.isFile && dst.MustBeDir) = true
          · rw [if_pos hm2]; exact h
          rw [if_neg hm2]
          cases inode with
          | file f =>
            dsimp only
            obtain ⟨dele, dels⟩ := doInsertFileInode_char fs dp dst.Entry f dd hdd
            cases hins : doInsertFileInode fs dp dst.Entry f with
            | mk e1 fs1 =>
              cases e1 with
              | some e =>
                dsimp only
                rw [dele e fs1 hins]
                exact h
              | none =>
                dsimp only
                obtain ⟨hdom1, hnext1, hchar1⟩ := dels fs1 hins
                have hAi : (fs1.dirs sp).isSome = true := by rw [hdom1 sp, hsd]; rfl
                cases hsd1 : fs1.dirs sp with
                | none => rw [hsd1] at hAi; exact absurd hAi (by decide)
                | some sd1 =>
                  dsimp only
                  exact Inv_move_file fs fs1 sp dp src.Entry dst.Entry f hs1 hs2 hd1 hd2
                    (fun hh => h4 hh.1) sd hsd hdom1 hnext1 hchar1 sd1 hsd1 h
          | dir c =>
            dsimp only
            have hcsome : (fs.dirs c).isSome = true := h.ref_closed sp sd src.Entry c hsd hlk
            obtain ⟨dele, dels⟩ := doInsertDirectoryInode_char fs dp dst.Entry c dd hdd hcsome
            cases hins : doInsertDirectoryInode fs dp dst.Entry c with
            | mk e1 fs1 =>
              cases e1 with
              | some e =>
                dsimp only
                rw [dele e fs1 hins]
                exact h
              | none =>
                dsimp only
                obtain ⟨hdom1, hnext1, hchar1⟩ := dels fs1 hins
                have hAi : (fs1.dirs sp).isSome = true := by rw [hdom1 sp, hsd]; rfl
                cases hsd1 : fs1.dirs sp with
                | none => rw [hsd1] at hAi; exact absurd hAi (by decide)
                | some sd1 =>
                  dsimp only
                  exact Inv_move_dir fs fs1 sp dp c src.Entry dst.Entry hs1 hs2 hd1 hd2
                    (fun hh => h4 hh.1) sd hsd hlk (by rw [hdd]; rfl)
                    hdom1 hnext1 hchar1 sd1 hsd1 h

/-- Every reachable heap satisfies the structural invariant. -/
theorem Inv_reachable (fs : FS) (h : Reachable fs) : Inv fs := by
  induction h with
  | init => exact Inv_initFS
  | addDirectory i name _ ih => exact Inv_AddDirectory _ i name ih
  | createFile i entry errOnExist _ ih => exact Inv_CreateFileInodeEntry _ i entry errOnExist ih
  | deleteDirectory i entry _ ih => exact Inv_DeleteDirectory _ i entry ih
  | deleteFile i entry _ ih => exact Inv_DeleteFile _ i entry ih
  | moveEntry srcP dstP src dst _ ih => exact Inv_MoveEntry _ srcP dstP src dst ih
  | truncateAndWriteAll fid d _ ih => exact Inv_FSTruncateAndWriteAll _ fid d ih
  | writeAt fid p off _ ih => exact Inv_FSWriteAt _ fid p off ih

/-- Claim C6: in every filesystem state reachable from a fresh filesystem by
any sequence of the public mutating operations, every directory's entry table
maps "." to the directory itself and ".." to a parent directory, the root's
".." maps to the root itself, and whenever a directory `p` holds a non-special
entry referencing a directory `c`, `c`'s ".." references exactly `p` — so in
particular, after a successful move of a directory to a different parent its
".." entry is the destination parent. -/
theorem claim_C6_dot_dotdot_invariant (fs : FS) (h : Reachable fs) :
    (∀ id d, fs.dirs id = some d →
      lookupEntry d.contents selfEntry = some (Ref.dir id) ∧
      ∃ p, lookupEntry d.contents parentEntry = some (Ref.dir p)) ∧
    (∀ d, fs.dirs rootId = some d →
      lookupEntry d.contents parentEntry = some (Ref.dir rootId)) ∧
    (∀ p dp n c dc, fs.dirs p = some dp → n ≠ selfEntry → n ≠ parentEntry →
      lookupEntry dp.contents n = some (Ref.dir c) → fs.dirs c = some dc →
      lookupEntry dc.contents parentEntry = some (Ref.dir p)) := by
  have hI := Inv_reachable fs h
  exact ⟨fun id d hd => ⟨hI.self_loop id d hd, hI.parent_ex id d hd⟩,
    hI.root_parent, hI.coherent⟩

/-- Witness for C6 at the concrete reachable state initFS (reachable by the
empty operation sequence). -/
theorem claim_C6_witness :
    (∀ id d, initFS.dirs id = some d →
      lookupEntry d.contents selfEntry = some (Ref.dir id) ∧
      ∃ p, lookupEntry d.contents parentEntry = some (Ref.dir p)) ∧
    (∀ d, initFS.dirs rootId = some d →
      lookupEntry d.contents parentEntry = some (Ref.dir rootId)) ∧
    (∀ p dp n c dc, initFS.dirs p = some dp → n ≠ selfEntry → n ≠ parentEntry →
      lookupEntry dp.contents n = some (Ref.dir c) → initFS.dirs c = some dc →
      lookupEntry dc.contents parentEntry = some (Ref.dir p)) :=
  claim_C6_dot_dotdot_invariant initFS Reachable.init

end MemFS
